import Mathlib

/-!
# Verification of the SchedulerShowdown scheduling policies

Shallow embedding of `src/schedulers.cpp`: the four scheduling policies
(`RoundRobin`, `ShortestProcessNext`, `ShortestRemainingTime`,
`HighestResponseRatioNext`), the process record they read, and the external
driver discipline of the specification (§6), together with theorems settling
the frozen claims about them.

Modelling conventions:
* C++ `int` is modelled as `Int` (no overflow is exercised by the claims).
* The function-local `static` variables of each policy are modelled as an
  explicit state value threaded through the step function (`RRState` for
  Round Robin, `SchedState` for the other three).
* The out-of-range read `ready[0]` on an empty `deque` — undefined behaviour
  in C++ — is modelled by returning `none`; all in-range executions return
  `some`.
* The `float` arithmetic of `HighestResponseRatioNext` is modelled with exact
  rationals `ℚ`; on the integer inputs of the claims the comparison agrees
  with the C++ computation.
-/

namespace Sched

/-- The process record (`Process` in `schedulers.h`), as read by the policies:
`startTime` is the arrival tick, `totalTimeNeeded` the total service demand,
`timeScheduled` the service already received, `isDone` the completion flag. -/
structure Process where
  startTime : Int
  totalTimeNeeded : Int
  timeScheduled : Int
  isDone : Bool
deriving Repr, DecidableEq

/-- Default process used as the `List.getD` fallback; every in-range access of
the source is in range in the embedding, so this value is never observed on
the executions the claims are about. -/
def dfltProc : Process := Process.mk 0 0 0 false

/-- `procList[i]` — roster access by index. -/
def getP (pl : List Process) (i : Nat) : Process := pl.getD i dfltProc

/-- `count == procList.size()` check shared by the three index-based policies:
true exactly when every roster entry is done. -/
def allDone (pl : List Process) : Bool := pl.all (fun p => p.isDone)

/-! ## Round Robin -/

/-- The `static` state of `RoundRobin`: `timeToNextSched` and the ready deque
(a list of process indices, front at the head). -/
structure RRState where
  timeToNextSched : Int
  ready : List Nat
deriving Repr, DecidableEq

/-- Fresh Round-Robin state: `timeToNextSched = timeQuantum`, empty queue. -/
def rrInit (timeQuantum : Int) : RRState := RRState.mk timeQuantum []

/-- Admission loop of `RoundRobin`: every index whose `startTime` equals the
current tick is appended, in index order, to the back of the ready queue. -/
def admitArrivals (curTime : Int) (pl : List Process) (rdy : List Nat) : List Nat :=
  rdy ++ (List.range pl.length).filter (fun i => (getP pl i).startTime == curTime)

/-- Rotation check of `RoundRobin`: the source evaluates
`timeToNextSched == 0 || procList[ready[0]].isDone` and, inside the branch,
reads `ready[0]` again; both reads are out of range on an empty queue, which
the embedding reports as `none`.  On a non-empty queue it returns the updated
`(timeToNextSched, ready)` pair. -/
def rrRotate (pl : List Process) (timeQuantum : Int) (t : Int) (rdy : List Nat) :
    Option (Int × List Nat) :=
  match rdy with
  | [] => none
  | h :: rest =>
    if t == 0 || (getP pl h).isDone then
      some (timeQuantum, if (getP pl h).isDone then rest else rest ++ [h])
    else
      some (t, h :: rest)

/-- `RoundRobin(curTime, procList, timeQuantum)` with the statics made an
explicit state.  Returns the decision (`-1` for idle, otherwise a process
index) and the successor state, or `none` when the source would read
`ready[0]` out of range. -/
def RoundRobin (curTime : Int) (pl : List Process) (timeQuantum : Int)
    (st : RRState) : Option (Int × RRState) :=
  match rrRotate pl timeQuantum st.timeToNextSched (admitArrivals curTime pl st.ready) with
  | none => none
  | some (t2, rdy2) =>
    match rdy2 with
    | h2 :: rest2 => some ((h2 : Int), RRState.mk (t2 - 1) (h2 :: rest2))
    | [] => some (-1, RRState.mk 0 [])

/-! ## The shared skeleton of the three index-based policies -/

/-- The `static` state shared by `ShortestProcessNext`,
`ShortestRemainingTime` and `HighestResponseRatioNext`: the currently
selected `index` and the `runTime` counter. -/
structure SchedState where
  index : Nat
  runTime : Int
deriving Repr, DecidableEq

/-- Fresh state of the three index-based policies: `index = 0`,
`runTime = 0`. -/
def schedInit : SchedState := SchedState.mk 0 0

/-- The first `for` loop shared by the three index-based policies: the first
index that is not done and has arrived (the loop `break`s at the first hit). -/
def firstEligible (curTime : Int) (pl : List Process) : Option Nat :=
  (List.range pl.length).find?
    (fun y => !(getP pl y).isDone && decide ((getP pl y).startTime ≤ curTime))

/-- The second `for` loop shared by the three index-based policies: a linear
scan replacing the candidate index whenever the guard
`startTime ≤ curTime && cmp x idx && !isDone x` holds, where `cmp` is the
policy's strict comparison. -/
def selectScan (curTime : Int) (pl : List Process) (cmp : Nat → Nat → Bool)
    (idx0 : Nat) : Nat :=
  (List.range pl.length).foldl
    (fun idx x =>
      if decide ((getP pl x).startTime ≤ curTime) && cmp x idx
          && !(getP pl x).isDone then x else idx)
    idx0

/-- Shared body of the three index-based policies.  The source repeats the
guard `runTime == 0` inside both loops; since `runTime` is constant during
one call this is modelled by running the loops only when the (possibly reset)
`runTime` is zero.  `inc` records whether the policy executes the final
`runTime++` (`ShortestRemainingTime` has it commented out). -/
def selectStep (curTime : Int) (pl : List Process) (cmp : Nat → Nat → Bool)
    (inc : Bool) (st : SchedState) : Int × SchedState :=
  let rt : Int := if (getP pl st.index).isDone then 0 else st.runTime
  let idx1 : Nat := if rt = 0 then (firstEligible curTime pl).getD st.index
                    else st.index
  let idx2 : Nat := if rt = 0 then selectScan curTime pl cmp idx1 else idx1
  let rt2 : Int := if inc then rt + 1 else rt
  if allDone pl then (-1, SchedState.mk idx2 rt2)
  else ((idx2 : Int), SchedState.mk idx2 rt2)

/-- `ShortestProcessNext(curTime, procList)`: comparison on strict
`totalTimeNeeded`, with the trailing `runTime++`. -/
def ShortestProcessNext (curTime : Int) (pl : List Process)
    (st : SchedState) : Int × SchedState :=
  selectStep curTime pl
    (fun x idx =>
      decide ((getP pl x).totalTimeNeeded < (getP pl idx).totalTimeNeeded))
    true st

/-- `ShortestRemainingTime(curTime, procList, timeQuantum)`: comparison on
strict remaining time `totalTimeNeeded - timeScheduled`; the `timeQuantum`
parameter is unused by the source and the `runTime++` is commented out, so
`inc = false`.  The `float` subtraction of the source is exact on the integer
fields and is modelled in `Int`. -/
def ShortestRemainingTime (curTime : Int) (pl : List Process)
    (timeQuantum : Int) (st : SchedState) : Int × SchedState :=
  selectStep curTime pl
    (fun x idx =>
      decide ((getP pl x).totalTimeNeeded - (getP pl x).timeScheduled <
        (getP pl idx).totalTimeNeeded - (getP pl idx).timeScheduled))
    false st

/-- Response ratio of `HighestResponseRatioNext`:
`(waiting + totalTimeNeeded) / totalTimeNeeded` with
`waiting = curTime - startTime - timeScheduled`, computed in exact rational
arithmetic in place of the source's `float`. -/
def hrrnKey (curTime : Int) (p : Process) : ℚ :=
  (((curTime - p.startTime - p.timeScheduled) + p.totalTimeNeeded : Int) : ℚ) /
    ((p.totalTimeNeeded : Int) : ℚ)

/-- `HighestResponseRatioNext(curTime, procList)`: comparison `xRatio >
indexRatio` on the response ratio, with the trailing `runTime++`. -/
def HighestResponseRatioNext (curTime : Int) (pl : List Process)
    (st : SchedState) : Int × SchedState :=
  selectStep curTime pl
    (fun x idx =>
      decide (hrrnKey curTime (getP pl idx) < hrrnKey curTime (getP pl x)))
    true st

/-! ## The external driver of §6 -/

/-- One driver update (§6): a decision `d ≥ 0` increments `timeScheduled` of
process `d` and sets `isDone` when `timeScheduled` reaches
`totalTimeNeeded`; `-1` decisions leave the roster unchanged. -/
def applyDecision (pl : List Process) (d : Int) : List Process :=
  if d < 0 then pl
  else
    match pl.get? d.toNat with
    | none => pl
    | some p =>
      pl.set d.toNat
        (Process.mk p.startTime p.totalTimeNeeded (p.timeScheduled + 1)
          (p.isDone || (p.timeScheduled + 1 == p.totalTimeNeeded)))

/-- Driver loop for the index-based policies: run `fuel` consecutive ticks
starting at `curTime`, applying each decision before the next tick; returns
the decisions in tick order together with the final roster and state. -/
def schedRun (step : Int → List Process → SchedState → Int × SchedState) :
    Nat → Int → List Process → SchedState →
    List Int × List Process × SchedState
  | 0, _, pl, st => ([], pl, st)
  | fuel + 1, curTime, pl, st =>
    let r := step curTime pl st
    let pl' := applyDecision pl r.1
    let rest := schedRun step fuel (curTime + 1) pl' r.2
    (r.1 :: rest.1, rest.2.1, rest.2.2)

/-- Driver loop for Round Robin; `none` as soon as a step reads `ready[0]`
out of range. -/
def rrRun (timeQuantum : Int) :
    Nat → Int → List Process → RRState →
    Option (List Int × List Process × RRState)
  | 0, _, pl, st => some ([], pl, st)
  | fuel + 1, curTime, pl, st =>
    match RoundRobin curTime pl timeQuantum st with
    | none => none
    | some (d, st') =>
      match rrRun timeQuantum fuel (curTime + 1) (applyDecision pl d) st' with
      | none => none
      | some rest => some (d :: rest.1, rest.2.1, rest.2.2)

/-- Sum of the service demands of a roster, as a natural number. -/
def sumNeeds (pl : List Process) : Nat :=
  (pl.map (fun p => p.totalTimeNeeded.toNat)).sum

/-- Total remaining service over a roster (the termination measure). -/
def remTotal (pl : List Process) : Nat :=
  (pl.map (fun p => (p.totalTimeNeeded - p.timeScheduled).toNat)).sum

/-- Repeated calls to a step function, each with a caller-chosen tick and
roster snapshot (the driver may have updated the roster in between); returns
the list of decisions. -/
def stepsReturn (step : Int → List Process → SchedState → Int × SchedState) :
    List (Int × List Process) → SchedState → List Int
  | [], _ => []
  | c :: cs, st =>
    let r := step c.1 c.2 st
    r.1 :: stepsReturn step cs r.2

/-- A roster entry is eligible at a tick when it has arrived and is not
done (§ glossary). -/
def elig (curTime : Int) (pl : List Process) (j : Nat) : Prop :=
  (getP pl j).isDone = false ∧ (getP pl j).startTime ≤ curTime

instance (curTime : Int) (pl : List Process) (j : Nat) :
    Decidable (elig curTime pl j) := by
  unfold elig; infer_instance

/-- Well-formedness of one roster entry during a run driven per §6, stated
loosely enough to survive the stale decisions of arrival gaps (where the
driver increments `timeScheduled` past `totalTimeNeeded`): positive demand,
non-negative counters, and `isDone` tracking
`totalTimeNeeded ≤ timeScheduled`. -/
def WFP (p : Process) : Prop :=
  0 < p.totalTimeNeeded ∧ 0 ≤ p.startTime ∧ 0 ≤ p.timeScheduled ∧
    (p.isDone = true ↔ p.totalTimeNeeded ≤ p.timeScheduled)

/-- Well-formedness of a roster during a run. -/
def WF (pl : List Process) : Prop := ∀ p ∈ pl, WFP p

/-- Initial roster of a simulation run: fresh counters, positive demands,
non-negative arrivals. -/
def initialRoster (pl : List Process) : Prop :=
  ∀ p ∈ pl, 0 < p.totalTimeNeeded ∧ 0 ≤ p.startTime ∧
    p.timeScheduled = 0 ∧ p.isDone = false

instance (pl : List Process) : Decidable (initialRoster pl) := by
  unfold initialRoster; infer_instance

/-- A natural-number bound on every arrival time of a roster. -/
def maxStart (pl : List Process) : Nat :=
  pl.foldr (fun p a => max p.startTime.toNat a) 0

/-- Queue invariant of the Round-Robin state for an all-arrived roster,
stated about the queue as seen after the admission loop: indices are in
range and distinct, every not-done process is queued, and only the head may
be done. -/
def rrQueueOK (curTime : Int) (pl : List Process) (st : RRState) : Prop :=
  (∀ i ∈ admitArrivals curTime pl st.ready, i < pl.length) ∧
    (admitArrivals curTime pl st.ready).Nodup ∧
    (∀ i, i < pl.length → (getP pl i).isDone = false →
      i ∈ admitArrivals curTime pl st.ready) ∧
    (∀ i ∈ (admitArrivals curTime pl st.ready).tail, (getP pl i).isDone = false)

/-- Safety property of a policy step function used by the run-level proofs:
whenever the state is in range and not every process is done, the decision is
a new in-range selected index, which is moreover not done whenever every
process has arrived. -/
def stepSafe (step : Int → List Process → SchedState → Int × SchedState) : Prop :=
  ∀ (curTime : Int) (pl : List Process) (st : SchedState),
    st.index < pl.length → allDone pl = false →
    ∃ i : Nat, (step curTime pl st).1 = (i : Int) ∧ i < pl.length ∧
      (step curTime pl st).2.index = i ∧
      ((∀ p ∈ pl, p.startTime ≤ curTime) → (getP pl i).isDone = false)

/-! ## Basic facts about the embedding's accessors -/

theorem getP_eq_getElem {pl : List Process} {i : Nat} (h : i < pl.length) :
    getP pl i = pl[i] := by
  unfold getP
  exact List.getD_eq_getElem pl dfltProc h

theorem getP_mem {pl : List Process} {i : Nat} (h : i < pl.length) :
    getP pl i ∈ pl := by
  rw [getP_eq_getElem h]
  exact List.getElem_mem h

theorem allDone_iff {pl : List Process} :
    allDone pl = true ↔ ∀ p ∈ pl, p.isDone = true := by
  unfold allDone
  simpa using List.all_eq_true

theorem allDone_eq_false {pl : List Process} {i : Nat} (hi : i < pl.length)
    (h : (getP pl i).isDone = false) : allDone pl = false := by
  rcases Bool.eq_false_or_eq_true (allDone pl) with hb | hb
  · exact absurd (allDone_iff.mp hb (getP pl i) (getP_mem hi)) (by simp [h])
  · exact hb

/-! ## Generic lemmas about the linear-scan selection loops -/

/-- A fold whose step either keeps the accumulator or replaces it by the
scanned element lands on the start value or a scanned element. -/
theorem foldl_pick_mem (f : Nat → Nat → Nat)
    (hf : ∀ idx x, f idx x = x ∨ f idx x = idx) :
    ∀ (l : List Nat) (i0 : Nat), l.foldl f i0 = i0 ∨ l.foldl f i0 ∈ l := by
  intro l
  induction l with
  | nil => intro i0; exact Or.inl rfl
  | cons a l ih =>
    intro i0
    rw [List.foldl_cons]
    rcases ih (f i0 a) with h | h
    · rcases hf i0 a with h2 | h2
      · right
        rw [h, h2]
        exact List.mem_cons_self a l
      · left
        rw [h, h2]
    · right
      exact List.mem_cons_of_mem a h

/-- Invariant of the strict-improvement scan of the source's second `for`
loop: starting from the leftmost index satisfying `P`, after scanning
`0, …, m-1` the accumulator satisfies `P`, is the start or a scanned index,
minimizes `key` over scanned indices satisfying `P`, and is the leftmost such
minimizer. -/
theorem foldl_select_aux {K : Type} [LinearOrder K]
    (f : Nat → Nat → Nat) (P : Nat → Prop) (key : Nat → K) (n : Nat) (i0 : Nat)
    (hf : ∀ idx x, (P x ∧ key x < key idx ∧ f idx x = x) ∨
      (¬(P x ∧ key x < key idx) ∧ f idx x = idx))
    (h0 : P i0) (hleft : ∀ j, j < n → P j → i0 ≤ j) :
    ∀ m, m ≤ n →
      P ((List.range m).foldl f i0) ∧
      ((List.range m).foldl f i0 = i0 ∨ (List.range m).foldl f i0 < m) ∧
      (∀ j, j < m → P j → key ((List.range m).foldl f i0) ≤ key j) ∧
      (∀ j, j < m → P j → key j = key ((List.range m).foldl f i0) →
        (List.range m).foldl f i0 ≤ j) := by
  intro m
  induction m with
  | zero =>
    intro _
    refine ⟨h0, Or.inl rfl, ?_, ?_⟩ <;> intro j hj <;> exact absurd hj (Nat.not_lt_zero j)
  | succ m ih =>
    intro hm
    obtain ⟨ihP, ihpos, ihmin, ihfirst⟩ := ih (Nat.le_of_succ_le hm)
    have hstep : (List.range (m + 1)).foldl f i0 =
        f ((List.range m).foldl f i0) m := by
      rw [List.range_succ, List.foldl_append, List.foldl_cons, List.foldl_nil]
    set a := (List.range m).foldl f i0 with ha
    rcases hf a m with ⟨hPm, hlt, hfa⟩ | ⟨hneg, hfa⟩
    · rw [hstep, hfa]
      refine ⟨hPm, Or.inr (Nat.lt_succ_self m), ?_, ?_⟩
      · intro j hj hPj
        rcases Nat.lt_succ_iff_lt_or_eq.mp hj with hj' | hj'
        · exact le_of_lt (lt_of_lt_of_le hlt (ihmin j hj' hPj))
        · rw [hj']
      · intro j hj hPj hkey
        rcases Nat.lt_succ_iff_lt_or_eq.mp hj with hj' | hj'
        · exact absurd (lt_of_lt_of_le hlt (ihmin j hj' hPj)) (by rw [hkey]; exact lt_irrefl _)
        · rw [hj']
    · rw [hstep, hfa]
      refine ⟨ihP, ?_, ?_, ?_⟩
      · rcases ihpos with h | h
        · exact Or.inl h
        · exact Or.inr (Nat.lt_succ_of_lt h)
      · intro j hj hPj
        rcases Nat.lt_succ_iff_lt_or_eq.mp hj with hj' | hj'
        · exact ihmin j hj' hPj
        · subst hj'
          exact not_lt.mp (fun hc => hneg ⟨hPj, hc⟩)
      · intro j hj hPj hkey
        rcases Nat.lt_succ_iff_lt_or_eq.mp hj with hj' | hj'
        · exact ihfirst j hj' hPj hkey
        · subst hj'
          rcases ihpos with h | h
          · rw [h]
            exact hleft j (Nat.lt_of_lt_of_le (Nat.lt_succ_self j) hm) hPj
          · exact le_of_lt h

/-- Leftmost-minimizer specification of the strict-improvement scan, for a
start value that is the leftmost index satisfying `P`. -/
theorem foldl_select_spec {K : Type} [LinearOrder K]
    (f : Nat → Nat → Nat) (P : Nat → Prop) (key : Nat → K) (n : Nat) (i0 : Nat)
    (hf : ∀ idx x, (P x ∧ key x < key idx ∧ f idx x = x) ∨
      (¬(P x ∧ key x < key idx) ∧ f idx x = idx))
    (h0 : P i0) (h0n : i0 < n) (hleft : ∀ j, j < n → P j → i0 ≤ j) :
    P ((List.range n).foldl f i0) ∧ (List.range n).foldl f i0 < n ∧
      (∀ j, j < n → P j → key ((List.range n).foldl f i0) ≤ key j) ∧
      (∀ j, j < n → P j → key j = key ((List.range n).foldl f i0) →
        (List.range n).foldl f i0 ≤ j) := by
  obtain ⟨hP, hpos, hmin, hfirst⟩ :=
    foldl_select_aux f P key n i0 hf h0 hleft n (le_refl n)
  refine ⟨hP, ?_, hmin, hfirst⟩
  rcases hpos with h | h
  · rw [h]; exact h0n
  · exact h

/-- Leftmost-maximizer version of `foldl_select_spec`, obtained through the
order dual. -/
theorem foldl_select_max_spec {K : Type} [LinearOrder K]
    (f : Nat → Nat → Nat) (P : Nat → Prop) (key : Nat → K) (n : Nat) (i0 : Nat)
    (hf : ∀ idx x, (P x ∧ key idx < key x ∧ f idx x = x) ∨
      (¬(P x ∧ key idx < key x) ∧ f idx x = idx))
    (h0 : P i0) (h0n : i0 < n) (hleft : ∀ j, j < n → P j → i0 ≤ j) :
    P ((List.range n).foldl f i0) ∧ (List.range n).foldl f i0 < n ∧
      (∀ j, j < n → P j → key j ≤ key ((List.range n).foldl f i0)) ∧
      (∀ j, j < n → P j → key j = key ((List.range n).foldl f i0) →
        (List.range n).foldl f i0 ≤ j) := by
  obtain ⟨hP, hn, hmin, hfirst⟩ :=
    foldl_select_spec f P (fun j => OrderDual.toDual (key j)) n i0
      (by
        intro idx x
        rcases hf idx x with ⟨h1, h2, h3⟩ | ⟨h1, h3⟩
        · exact Or.inl ⟨h1, OrderDual.toDual_lt_toDual.mpr h2, h3⟩
        · refine Or.inr ⟨?_, h3⟩
          intro hc
          exact h1 ⟨hc.1, OrderDual.toDual_lt_toDual.mp hc.2⟩)
      h0 h0n hleft
  refine ⟨hP, hn, ?_, ?_⟩
  · intro j hj hPj
    exact OrderDual.toDual_le_toDual.mp (hmin j hj hPj)
  · intro j hj hPj hkey
    exact hfirst j hj hPj (OrderDual.toDual_inj.mpr hkey ▸ rfl)

/-- `List.find?` over `List.range n` returns the least index below `n`
satisfying the predicate. -/
theorem find?_range_first {p : Nat → Bool} {n y : Nat}
    (h : (List.range n).find? p = some y) :
    p y = true ∧ y < n ∧ ∀ j, j < n → p j = true → y ≤ j := by
  induction n with
  | zero => simp [List.range_zero] at h
  | succ n ih =>
    rw [List.range_succ, List.find?_append] at h
    cases hfind : (List.range n).find? p with
    | some z =>
      rw [hfind] at h
      simp only [Option.or_some] at h
      obtain ⟨h1, h2, h3⟩ := ih (by rw [hfind, h])
      refine ⟨h1, Nat.lt_succ_of_lt h2, ?_⟩
      intro j hj hp
      rcases Nat.lt_succ_iff_lt_or_eq.mp hj with hj' | hj'
      · exact h3 j hj' hp
      · subst hj'
        exact le_of_lt h2
    | none =>
      rw [hfind] at h
      simp only [Option.none_or] at h
      have hy : y = n := by
        by_cases hp : p n
        · simp [List.find?, hp] at h
          exact h.symm
        · simp [List.find?, hp] at h
      subst hy
      refine ⟨?_, Nat.lt_succ_self y, ?_⟩
      · by_cases hp : p y
        · exact hp
        · simp [List.find?, hp] at h
      · intro j hj hp
        rcases Nat.lt_succ_iff_lt_or_eq.mp hj with hj' | hj'
        · exact absurd hp (List.find?_eq_none.mp hfind j (List.mem_range.mpr hj'))
        · exact le_of_eq hj'.symm

/-- When some index below `n` satisfies the predicate, `List.find?` over
`List.range n` succeeds. -/
theorem find?_range_isSome {p : Nat → Bool} {n : Nat}
    (h : ∃ j, j < n ∧ p j = true) :
    ∃ y, (List.range n).find? p = some y := by
  obtain ⟨j, hj, hp⟩ := h
  cases hfind : (List.range n).find? p with
  | some y => exact ⟨y, rfl⟩
  | none => exact absurd hp (List.find?_eq_none.mp hfind j (List.mem_range.mpr hj))

/-- A fold that never replaces its accumulator returns the start value. -/
theorem foldl_keep (f : Nat → Nat → Nat) (l : List Nat) (i0 : Nat)
    (hf : ∀ idx, ∀ x ∈ l, f idx x = idx) : l.foldl f i0 = i0 := by
  induction l generalizing i0 with
  | nil => rfl
  | cons a l ih =>
    rw [List.foldl_cons, hf i0 a (List.mem_cons_self a l)]
    exact ih i0 (fun idx x hx => hf idx x (List.mem_cons_of_mem a hx))

/-- The Boolean guard of the first `for` loop decides eligibility. -/
theorem eligBool_iff {curTime : Int} {pl : List Process} {j : Nat} :
    (!(getP pl j).isDone && decide ((getP pl j).startTime ≤ curTime)) = true ↔
      elig curTime pl j := by
  simp [elig, Bool.and_eq_true, Bool.not_eq_true']

/-! ## Characterization of the first selection loop -/

/-- `firstEligible` returns the least eligible index. -/
theorem firstEligible_spec {curTime : Int} {pl : List Process} {y : Nat}
    (h : firstEligible curTime pl = some y) :
    elig curTime pl y ∧ y < pl.length ∧
      ∀ j, j < pl.length → elig curTime pl j → y ≤ j := by
  obtain ⟨h1, h2, h3⟩ := find?_range_first h
  exact ⟨eligBool_iff.mp h1, h2,
    fun j hj hel => h3 j hj (eligBool_iff.mpr hel)⟩

/-- `firstEligible` succeeds when an eligible index exists. -/
theorem firstEligible_isSome {curTime : Int} {pl : List Process}
    (h : ∃ j, j < pl.length ∧ elig curTime pl j) :
    ∃ y, firstEligible curTime pl = some y := by
  apply find?_range_isSome
  obtain ⟨j, hj, hel⟩ := h
  exact ⟨j, hj, eligBool_iff.mpr hel⟩

/-! ## Characterization of the second selection loop -/

/-- When the policy's comparison decides a strict key order, the scan returns
the leftmost eligible key-minimizer (the accumulator is replaced only on
strict improvement). -/
theorem selectScan_spec {K : Type} [LinearOrder K] (curTime : Int)
    (pl : List Process) (cmp : Nat → Nat → Bool) (key : Nat → K)
    (hcmp : ∀ x idx, cmp x idx = true ↔ key x < key idx) (i0 : Nat)
    (h0 : elig curTime pl i0) (h0n : i0 < pl.length)
    (hleft : ∀ j, j < pl.length → elig curTime pl j → i0 ≤ j) :
    elig curTime pl (selectScan curTime pl cmp i0) ∧
      selectScan curTime pl cmp i0 < pl.length ∧
      (∀ j, j < pl.length → elig curTime pl j →
        key (selectScan curTime pl cmp i0) ≤ key j) ∧
      (∀ j, j < pl.length → elig curTime pl j →
        key j = key (selectScan curTime pl cmp i0) →
        selectScan curTime pl cmp i0 ≤ j) := by
  unfold selectScan
  exact foldl_select_spec _ (elig curTime pl) key pl.length i0
    (by
      intro idx x
      by_cases hx : elig curTime pl x ∧ key x < key idx
      · refine Or.inl ⟨hx.1, hx.2, ?_⟩
        simp [hx.1.1, hx.1.2, hcmp x idx, hx.2]
      · refine Or.inr ⟨hx, ?_⟩
        by_cases h1 : (getP pl x).startTime ≤ curTime
        · by_cases h2 : (getP pl x).isDone = false
          · by_cases h3 : key x < key idx
            · exact absurd ⟨⟨h2, h1⟩, h3⟩ hx
            · simp [hcmp x idx, h3]
          · have h2' : (getP pl x).isDone = true := by simpa using h2
            simp [h2']
        · simp [h1])
    h0 h0n hleft

/-- Leftmost eligible key-maximizer version of `selectScan_spec`, for the
`>`-comparison of `HighestResponseRatioNext`. -/
theorem selectScan_max_spec {K : Type} [LinearOrder K] (curTime : Int)
    (pl : List Process) (cmp : Nat → Nat → Bool) (key : Nat → K)
    (hcmp : ∀ x idx, cmp x idx = true ↔ key idx < key x) (i0 : Nat)
    (h0 : elig curTime pl i0) (h0n : i0 < pl.length)
    (hleft : ∀ j, j < pl.length → elig curTime pl j → i0 ≤ j) :
    elig curTime pl (selectScan curTime pl cmp i0) ∧
      selectScan curTime pl cmp i0 < pl.length ∧
      (∀ j, j < pl.length → elig curTime pl j →
        key j ≤ key (selectScan curTime pl cmp i0)) ∧
      (∀ j, j < pl.length → elig curTime pl j →
        key j = key (selectScan curTime pl cmp i0) →
        selectScan curTime pl cmp i0 ≤ j) := by
  unfold selectScan
  exact foldl_select_max_spec _ (elig curTime pl) key pl.length i0
    (by
      intro idx x
      by_cases hx : elig curTime pl x ∧ key idx < key x
      · refine Or.inl ⟨hx.1, hx.2, ?_⟩
        simp [hx.1.1, hx.1.2, hcmp x idx, hx.2]
      · refine Or.inr ⟨hx, ?_⟩
        by_cases h1 : (getP pl x).startTime ≤ curTime
        · by_cases h2 : (getP pl x).isDone = false
          · by_cases h3 : key idx < key x
            · exact absurd ⟨⟨h2, h1⟩, h3⟩ hx
            · simp [hcmp x idx, h3]
          · have h2' : (getP pl x).isDone = true := by simpa using h2
            simp [h2']
        · simp [h1])
    h0 h0n hleft

/-- The scan never leaves the union of the start index and the roster
index range. -/
theorem selectScan_mem (curTime : Int) (pl : List Process)
    (cmp : Nat → Nat → Bool) (i0 : Nat) :
    selectScan curTime pl cmp i0 = i0 ∨ selectScan curTime pl cmp i0 < pl.length := by
  have h := foldl_pick_mem
    (fun idx x =>
      if decide ((getP pl x).startTime ≤ curTime) && cmp x idx
          && !(getP pl x).isDone then x else idx)
    (by
      intro idx x
      by_cases hc : (decide ((getP pl x).startTime ≤ curTime) && cmp x idx
          && !(getP pl x).isDone) = true
      · exact Or.inl (if_pos hc)
      · exact Or.inr (if_neg hc))
    (List.range pl.length) i0
  unfold selectScan
  rcases h with h | h
  · exact Or.inl h
  · exact Or.inr (List.mem_range.mp h)

/-- The scan stays at its start index when no eligible process exists. -/
theorem selectScan_keep {curTime : Int} {pl : List Process}
    {cmp : Nat → Nat → Bool} {i0 : Nat}
    (h : ∀ j, j < pl.length → ¬ elig curTime pl j) :
    selectScan curTime pl cmp i0 = i0 := by
  unfold selectScan
  apply foldl_keep
  intro idx x hx
  have hxn : x < pl.length := List.mem_range.mp hx
  have : ¬ ((getP pl x).isDone = false ∧ (getP pl x).startTime ≤ curTime) :=
    h x hxn
  by_cases h1 : (getP pl x).startTime ≤ curTime
  · have h2 : (getP pl x).isDone = true := by
      rcases Bool.eq_false_or_eq_true (getP pl x).isDone with hb | hb
      · exact hb
      · exact absurd ⟨hb, h1⟩ this
    simp [h2]
  · simp [h1]

/-! ## Characterization of the shared policy body `selectStep` -/

/-- When not every process is done, the returned decision is the new
selected index. -/
theorem selectStep_result {curTime : Int} {pl : List Process}
    {cmp : Nat → Nat → Bool} {inc : Bool} {st : SchedState}
    (h : allDone pl = false) :
    (selectStep curTime pl cmp inc st).1 =
      (((selectStep curTime pl cmp inc st).2.index : Nat) : Int) := by
  unfold selectStep
  simp [h]

/-- When every process is done, the decision is the `-1` sentinel. -/
theorem selectStep_allDone {curTime : Int} {pl : List Process}
    {cmp : Nat → Nat → Bool} {inc : Bool} {st : SchedState}
    (h : allDone pl = true) :
    (selectStep curTime pl cmp inc st).1 = -1 := by
  unfold selectStep
  simp [h]

/-- The `-1` sentinel is returned exactly when every process is done. -/
theorem selectStep_neg_iff {curTime : Int} {pl : List Process}
    {cmp : Nat → Nat → Bool} {inc : Bool} {st : SchedState} :
    (selectStep curTime pl cmp inc st).1 = -1 ↔ allDone pl = true := by
  constructor
  · intro h
    rcases Bool.eq_false_or_eq_true (allDone pl) with hb | hb
    · exact hb
    · rw [selectStep_result hb] at h
      exact absurd h (by omega)
  · exact selectStep_allDone

/-- The new selected index, as computed by the two loops: when the (possibly
reset) `runTime` is zero, the first loop's result is refined by the scan;
otherwise the old index is kept. -/
theorem selectStep_index_eq (curTime : Int) (pl : List Process)
    (cmp : Nat → Nat → Bool) (inc : Bool) (st : SchedState) :
    (selectStep curTime pl cmp inc st).2.index =
      (if (if (getP pl st.index).isDone then (0 : Int) else st.runTime) = 0 then
        selectScan curTime pl cmp ((firstEligible curTime pl).getD st.index)
      else st.index) := by
  unfold selectStep
  by_cases hall : allDone pl <;>
    by_cases hrt : (if (getP pl st.index).isDone then (0 : Int) else st.runTime) = 0 <;>
    simp [hall, hrt]

/-- The new `runTime`, which the skeleton increments exactly when `inc`. -/
theorem selectStep_runTime_eq (curTime : Int) (pl : List Process)
    (cmp : Nat → Nat → Bool) (inc : Bool) (st : SchedState) :
    (selectStep curTime pl cmp inc st).2.runTime =
      (if inc then (if (getP pl st.index).isDone then (0 : Int) else st.runTime) + 1
       else (if (getP pl st.index).isDone then (0 : Int) else st.runTime)) := by
  unfold selectStep
  by_cases hall : allDone pl <;> simp [hall]

/-- The selected index stays within the roster range. -/
theorem selectStep_index_lt {curTime : Int} {pl : List Process}
    {cmp : Nat → Nat → Bool} {inc : Bool} {st : SchedState}
    (hst : st.index < pl.length) :
    (selectStep curTime pl cmp inc st).2.index < pl.length := by
  rw [selectStep_index_eq]
  by_cases hrt : (if (getP pl st.index).isDone then (0 : Int) else st.runTime) = 0
  · rw [if_pos hrt]
    have hidx1 : (firstEligible curTime pl).getD st.index < pl.length := by
      cases hfe : firstEligible curTime pl with
      | some y =>
        rw [Option.getD_some]
        exact (firstEligible_spec hfe).2.1
      | none =>
        rw [Option.getD_none]
        exact hst
    rcases selectScan_mem curTime pl cmp ((firstEligible curTime pl).getD st.index)
        with hm | hm
    · rw [hm]
      exact hidx1
    · exact hm
  · rw [if_neg hrt]
    exact hst

/-- Mid-run behaviour of the shared skeleton: while the selected process is
not done and `runTime` is non-zero, both loops are skipped and the same index
is returned with `runTime` advanced (when the policy increments it). -/
theorem selectStep_midrun {curTime : Int} {pl : List Process}
    {cmp : Nat → Nat → Bool} {inc : Bool} {st : SchedState}
    (hdone : (getP pl st.index).isDone = false)
    (hrt : st.runTime ≠ 0) (hall : allDone pl = false) :
    selectStep curTime pl cmp inc st =
      ((st.index : Int),
        SchedState.mk st.index (if inc then st.runTime + 1 else st.runTime)) := by
  unfold selectStep
  simp [hdone, hrt, hall]

/-- Stale behaviour of the shared skeleton: when the selected process is done
but no eligible process exists, both loops leave the index unchanged, and the
stale index is returned whenever not every process is done. -/
theorem selectStep_stale {curTime : Int} {pl : List Process}
    {cmp : Nat → Nat → Bool} {inc : Bool} {st : SchedState}
    (hdone : (getP pl st.index).isDone = true)
    (hnone : ∀ j, j < pl.length → ¬ elig curTime pl j) :
    (selectStep curTime pl cmp inc st).2.index = st.index ∧
      (allDone pl = false →
        (selectStep curTime pl cmp inc st).1 = (st.index : Int)) := by
  have hfe : firstEligible curTime pl = none := by
    unfold firstEligible
    apply List.find?_eq_none.mpr
    intro x hx hp
    exact hnone x (List.mem_range.mp hx) (eligBool_iff.mp hp)
  have hidx : (selectStep curTime pl cmp inc st).2.index = st.index := by
    rw [selectStep_index_eq]
    simp [hdone, hfe, selectScan_keep hnone]
  refine ⟨hidx, ?_⟩
  intro hall
  rw [selectStep_result hall, hidx]

/-- Decision-point behaviour of the shared skeleton for a `<`-comparison:
when the (possibly reset) `runTime` is zero and an eligible process exists,
the returned index is the leftmost eligible key-minimizer. -/
theorem selectStep_decision {K : Type} [LinearOrder K] {curTime : Int}
    {pl : List Process} {cmp : Nat → Nat → Bool} {inc : Bool} {st : SchedState}
    (key : Nat → K) (hcmp : ∀ x idx, cmp x idx = true ↔ key x < key idx)
    (hrt : st.runTime = 0 ∨ (getP pl st.index).isDone = true)
    (hex : ∃ j, j < pl.length ∧ elig curTime pl j) :
    (selectStep curTime pl cmp inc st).1 =
      (((selectStep curTime pl cmp inc st).2.index : Nat) : Int) ∧
      elig curTime pl (selectStep curTime pl cmp inc st).2.index ∧
      (selectStep curTime pl cmp inc st).2.index < pl.length ∧
      (∀ j, j < pl.length → elig curTime pl j →
        key (selectStep curTime pl cmp inc st).2.index ≤ key j) ∧
      (∀ j, j < pl.length → elig curTime pl j →
        key j = key (selectStep curTime pl cmp inc st).2.index →
        (selectStep curTime pl cmp inc st).2.index ≤ j) := by
  have hall : allDone pl = false := by
    obtain ⟨j, hj, hel⟩ := hex
    exact allDone_eq_false hj hel.1
  have hrt0 : (if (getP pl st.index).isDone then (0 : Int) else st.runTime) = 0 := by
    rcases hrt with h | h
    · by_cases hb : (getP pl st.index).isDone = true <;> simp [hb, h]
    · simp [h]
  obtain ⟨y, hy⟩ := firstEligible_isSome hex
  obtain ⟨hely, hyn, hyleft⟩ := firstEligible_spec hy
  have hidx : (selectStep curTime pl cmp inc st).2.index =
      selectScan curTime pl cmp y := by
    rw [selectStep_index_eq]
    simp [hrt0, hy]
  obtain ⟨h1, h2, h3, h4⟩ := selectScan_spec curTime pl cmp key hcmp y hely hyn hyleft
  refine ⟨selectStep_result hall, ?_, ?_, ?_, ?_⟩ <;> rw [hidx]
  exacts [h1, h2, h3, h4]

/-- Decision-point behaviour of the shared skeleton for a `>`-comparison:
the returned index is the leftmost eligible key-maximizer. -/
theorem selectStep_decision_max {K : Type} [LinearOrder K] {curTime : Int}
    {pl : List Process} {cmp : Nat → Nat → Bool} {inc : Bool} {st : SchedState}
    (key : Nat → K) (hcmp : ∀ x idx, cmp x idx = true ↔ key idx < key x)
    (hrt : st.runTime = 0 ∨ (getP pl st.index).isDone = true)
    (hex : ∃ j, j < pl.length ∧ elig curTime pl j) :
    (selectStep curTime pl cmp inc st).1 =
      (((selectStep curTime pl cmp inc st).2.index : Nat) : Int) ∧
      elig curTime pl (selectStep curTime pl cmp inc st).2.index ∧
      (selectStep curTime pl cmp inc st).2.index < pl.length ∧
      (∀ j, j < pl.length → elig curTime pl j →
        key j ≤ key (selectStep curTime pl cmp inc st).2.index) ∧
      (∀ j, j < pl.length → elig curTime pl j →
        key j = key (selectStep curTime pl cmp inc st).2.index →
        (selectStep curTime pl cmp inc st).2.index ≤ j) := by
  have hall : allDone pl = false := by
    obtain ⟨j, hj, hel⟩ := hex
    exact allDone_eq_false hj hel.1
  have hrt0 : (if (getP pl st.index).isDone then (0 : Int) else st.runTime) = 0 := by
    rcases hrt with h | h
    · by_cases hb : (getP pl st.index).isDone = true <;> simp [hb, h]
    · simp [h]
  obtain ⟨y, hy⟩ := firstEligible_isSome hex
  obtain ⟨hely, hyn, hyleft⟩ := firstEligible_spec hy
  have hidx : (selectStep curTime pl cmp inc st).2.index =
      selectScan curTime pl cmp y := by
    rw [selectStep_index_eq]
    simp [hrt0, hy]
  obtain ⟨h1, h2, h3, h4⟩ :=
    selectScan_max_spec curTime pl cmp key hcmp y hely hyn hyleft
  refine ⟨selectStep_result hall, ?_, ?_, ?_, ?_⟩ <;> rw [hidx]
  exacts [h1, h2, h3, h4]

/-- A fold whose replacements all satisfy `P` preserves `P`. -/
theorem foldl_pres (f : Nat → Nat → Nat) (P : Nat → Prop)
    (hf : ∀ idx x, f idx x = idx ∨ (f idx x = x ∧ P x)) :
    ∀ (l : List Nat) (i0 : Nat), P i0 → P (l.foldl f i0) := by
  intro l
  induction l with
  | nil => intro i0 h0; exact h0
  | cons a l ih =>
    intro i0 h0
    rw [List.foldl_cons]
    rcases hf i0 a with h | ⟨h, hPa⟩
    · rw [h]; exact ih i0 h0
    · rw [h]; exact ih a hPa

/-- The scan preserves eligibility of its start index, for any comparison. -/
theorem selectScan_elig {curTime : Int} {pl : List Process}
    {cmp : Nat → Nat → Bool} {i0 : Nat}
    (h0 : elig curTime pl i0) :
    elig curTime pl (selectScan curTime pl cmp i0) := by
  unfold selectScan
  apply foldl_pres _ (elig curTime pl) _ _ i0 h0
  intro idx x
  by_cases hc : (decide ((getP pl x).startTime ≤ curTime) && cmp x idx
      && !(getP pl x).isDone) = true
  · refine Or.inr ⟨if_pos hc, ?_⟩
    simp only [Bool.and_eq_true, Bool.not_eq_true', decide_eq_true_eq] at hc
    exact ⟨hc.2, hc.1.1⟩
  · exact Or.inl (if_neg hc)

/-- `firstEligible` fails exactly when no index is eligible. -/
theorem firstEligible_eq_none {curTime : Int} {pl : List Process}
    (hnone : ∀ j, j < pl.length → ¬ elig curTime pl j) :
    firstEligible curTime pl = none := by
  unfold firstEligible
  apply List.find?_eq_none.mpr
  intro x hx hp
  exact hnone x (List.mem_range.mp hx) (eligBool_iff.mp hp)

/-- Decision-point behaviour of the shared skeleton, comparison-independent
part: with an eligible process available, the returned index is eligible and
in range. -/
theorem selectStep_decision_elig {curTime : Int} {pl : List Process}
    {cmp : Nat → Nat → Bool} {inc : Bool} {st : SchedState}
    (hrt : st.runTime = 0 ∨ (getP pl st.index).isDone = true)
    (hex : ∃ j, j < pl.length ∧ elig curTime pl j) :
    (selectStep curTime pl cmp inc st).1 =
      (((selectStep curTime pl cmp inc st).2.index : Nat) : Int) ∧
      elig curTime pl (selectStep curTime pl cmp inc st).2.index ∧
      (selectStep curTime pl cmp inc st).2.index < pl.length := by
  have hall : allDone pl = false := by
    obtain ⟨j, hj, hel⟩ := hex
    exact allDone_eq_false hj hel.1
  have hrt0 : (if (getP pl st.index).isDone then (0 : Int) else st.runTime) = 0 := by
    rcases hrt with h | h
    · by_cases hb : (getP pl st.index).isDone = true <;> simp [hb, h]
    · simp [h]
  obtain ⟨y, hy⟩ := firstEligible_isSome hex
  obtain ⟨hely, hyn, _⟩ := firstEligible_spec hy
  have hidx : (selectStep curTime pl cmp inc st).2.index =
      selectScan curTime pl cmp y := by
    rw [selectStep_index_eq]
    simp [hrt0, hy]
  refine ⟨selectStep_result hall, ?_, ?_⟩ <;> rw [hidx]
  · exact selectScan_elig hely
  · rcases selectScan_mem curTime pl cmp y with hm | hm
    · rw [hm]; exact hyn
    · exact hm

/-- Pre-arrival behaviour of the shared skeleton from the fresh state: with
no process arrived and not everything done, index `0` is returned and
`runTime` becomes `1` (for the policies that increment it). -/
theorem selectStep_prearrival {curTime : Int} {pl : List Process}
    {cmp : Nat → Nat → Bool}
    (hpre : ∀ p ∈ pl, curTime < p.startTime) (hall : allDone pl = false) :
    selectStep curTime pl cmp true schedInit = ((0 : Int), SchedState.mk 0 1) := by
  have hnone : ∀ j, j < pl.length → ¬ elig curTime pl j := by
    intro j hj hel
    exact absurd hel.2 (not_le.mpr (hpre _ (getP_mem hj)))
  have hfe : firstEligible curTime pl = none := firstEligible_eq_none hnone
  unfold selectStep schedInit
  simp [ite_self, hfe, selectScan_keep hnone, hall]

/-- A step function with the mid-run behaviour of `selectStep` (with
increment) keeps returning the locked index as long as that process stays
not-done, over any sequence of calls. -/
theorem stepsReturn_locked (step : Int → List Process → SchedState → Int × SchedState)
    (hstep : ∀ curTime pl st, st.index < pl.length →
      (getP pl st.index).isDone = false → 0 < st.runTime →
      step curTime pl st =
        ((st.index : Int), SchedState.mk st.index (st.runTime + 1))) :
    ∀ (calls : List (Int × List Process)) (i : Nat) (r : Int), 0 < r →
      (∀ c ∈ calls, i < c.2.length ∧ (getP c.2 i).isDone = false) →
      stepsReturn step calls (SchedState.mk i r) =
        calls.map (fun _ => (i : Int)) := by
  intro calls
  induction calls with
  | nil => intro i r _ _; rfl
  | cons c cs ih =>
    intro i r hr hc
    have h1 := hc c (List.mem_cons_self c cs)
    have hstep1 := hstep c.1 c.2 (SchedState.mk i r) h1.1 h1.2 hr
    unfold stepsReturn
    rw [hstep1]
    simp only [List.map_cons]
    rw [ih i (r + 1) (by omega)
      (fun c' hc' => hc c' (List.mem_cons_of_mem c hc'))]

/-- Mid-run behaviour of `ShortestProcessNext`. -/
theorem spn_midrun_step (curTime : Int) (pl : List Process) (st : SchedState)
    (hlen : st.index < pl.length) (hdone : (getP pl st.index).isDone = false)
    (hr : 0 < st.runTime) :
    ShortestProcessNext curTime pl st =
      ((st.index : Int), SchedState.mk st.index (st.runTime + 1)) := by
  unfold ShortestProcessNext
  have h := @selectStep_midrun curTime pl
    (fun x idx =>
      decide ((getP pl x).totalTimeNeeded < (getP pl idx).totalTimeNeeded))
    true st hdone (ne_of_gt hr) (allDone_eq_false hlen hdone)
  simpa using h

/-- Mid-run behaviour of `HighestResponseRatioNext`. -/
theorem hrrn_midrun_step (curTime : Int) (pl : List Process) (st : SchedState)
    (hlen : st.index < pl.length) (hdone : (getP pl st.index).isDone = false)
    (hr : 0 < st.runTime) :
    HighestResponseRatioNext curTime pl st =
      ((st.index : Int), SchedState.mk st.index (st.runTime + 1)) := by
  unfold HighestResponseRatioNext
  have h := @selectStep_midrun curTime pl
    (fun x idx =>
      decide (hrrnKey curTime (getP pl idx) < hrrnKey curTime (getP pl x)))
    true st hdone (ne_of_gt hr) (allDone_eq_false hlen hdone)
  simpa using h

/-! ## The driver update -/

theorem applyDecision_neg {pl : List Process} {d : Int} (h : d < 0) :
    applyDecision pl d = pl := by
  unfold applyDecision
  rw [if_pos h]

theorem applyDecision_oor {pl : List Process} {i : Nat} (hi : ¬ i < pl.length) :
    applyDecision pl (i : Int) = pl := by
  unfold applyDecision
  rw [if_neg (by omega)]
  have hnone : pl.get? (i : Int).toNat = none := by
    rw [Int.toNat_natCast, List.get?_eq_getElem?]
    exact List.getElem?_eq_none (by omega)
  rw [hnone]

theorem applyDecision_eq_set {pl : List Process} {i : Nat} (hi : i < pl.length) :
    applyDecision pl (i : Int) =
      pl.set i (Process.mk (getP pl i).startTime (getP pl i).totalTimeNeeded
        ((getP pl i).timeScheduled + 1)
        ((getP pl i).isDone ||
          ((getP pl i).timeScheduled + 1 == (getP pl i).totalTimeNeeded))) := by
  unfold applyDecision
  rw [if_neg (by omega)]
  have hsome : pl.get? (i : Int).toNat = some (getP pl i) := by
    rw [Int.toNat_natCast, List.get?_eq_getElem?, List.getElem?_eq_getElem hi,
      getP_eq_getElem hi]
  rw [hsome, Int.toNat_natCast]

theorem applyDecision_length (pl : List Process) (d : Int) :
    (applyDecision pl d).length = pl.length := by
  unfold applyDecision
  split
  · rfl
  · split
    · rfl
    · exact List.length_set pl _ _

theorem getP_set_self {pl : List Process} {i : Nat} (hi : i < pl.length)
    (p : Process) : getP (pl.set i p) i = p := by
  rw [getP_eq_getElem (by rw [List.length_set]; exact hi)]
  exact List.getElem_set_self _

theorem getP_set_ne {pl : List Process} {i j : Nat} (p : Process)
    (hne : i ≠ j) : getP (pl.set i p) j = getP pl j := by
  by_cases hj : j < pl.length
  · rw [getP_eq_getElem (by rw [List.length_set]; exact hj),
      getP_eq_getElem hj]
    exact List.getElem_set_ne hne _
  · unfold getP
    rw [List.getD_eq_getElem?_getD, List.getD_eq_getElem?_getD,
      List.getElem?_eq_none (by rw [List.length_set]; omega),
      List.getElem?_eq_none (by omega)]

theorem getP_applyDecision_self {pl : List Process} {i : Nat}
    (hi : i < pl.length) :
    getP (applyDecision pl (i : Int)) i =
      Process.mk (getP pl i).startTime (getP pl i).totalTimeNeeded
        ((getP pl i).timeScheduled + 1)
        ((getP pl i).isDone ||
          ((getP pl i).timeScheduled + 1 == (getP pl i).totalTimeNeeded)) := by
  rw [applyDecision_eq_set hi, getP_set_self hi]

theorem getP_applyDecision_ne {pl : List Process} {i j : Nat}
    (hne : i ≠ j) :
    getP (applyDecision pl (i : Int)) j = getP pl j := by
  by_cases hi : i < pl.length
  · rw [applyDecision_eq_set hi, getP_set_ne _ hne]
  · rw [applyDecision_oor hi]

theorem applyDecision_startTime (pl : List Process) (d : Int) (j : Nat) :
    (getP (applyDecision pl d) j).startTime = (getP pl j).startTime := by
  rcases lt_or_le d 0 with hd | hd
  · rw [applyDecision_neg hd]
  · obtain ⟨i, rfl⟩ : ∃ i : Nat, d = (i : Int) := ⟨d.toNat, by omega⟩
    by_cases hij : i = j
    · subst hij
      by_cases hi : i < pl.length
      · rw [getP_applyDecision_self hi]
      · rw [applyDecision_oor hi]
    · rw [getP_applyDecision_ne hij]

theorem applyDecision_totalTimeNeeded (pl : List Process) (d : Int) (j : Nat) :
    (getP (applyDecision pl d) j).totalTimeNeeded =
      (getP pl j).totalTimeNeeded := by
  rcases lt_or_le d 0 with hd | hd
  · rw [applyDecision_neg hd]
  · obtain ⟨i, rfl⟩ : ∃ i : Nat, d = (i : Int) := ⟨d.toNat, by omega⟩
    by_cases hij : i = j
    · subst hij
      by_cases hi : i < pl.length
      · rw [getP_applyDecision_self hi]
      · rw [applyDecision_oor hi]
    · rw [getP_applyDecision_ne hij]

theorem applyDecision_done_mono {pl : List Process} {d : Int} {j : Nat}
    (h : (getP pl j).isDone = true) :
    (getP (applyDecision pl d) j).isDone = true := by
  rcases lt_or_le d 0 with hd | hd
  · rw [applyDecision_neg hd]; exact h
  · obtain ⟨i, rfl⟩ : ∃ i : Nat, d = (i : Int) := ⟨d.toNat, by omega⟩
    by_cases hij : i = j
    · subst hij
      by_cases hi : i < pl.length
      · rw [getP_applyDecision_self hi]
        simp [h]
      · rw [applyDecision_oor hi]; exact h
    · rw [getP_applyDecision_ne hij]; exact h

theorem applyDecision_mem_start (pl : List Process) (d : Int)
    (Q : Int → Prop) (h : ∀ p ∈ pl, Q p.startTime) :
    ∀ p' ∈ applyDecision pl d, Q p'.startTime := by
  intro p' hp'
  unfold applyDecision at hp'
  split at hp'
  · exact h p' hp'
  · split at hp'
    · exact h p' hp'
    · rename_i p hget
      rcases List.mem_or_eq_of_mem_set hp' with hmem | heq
      · exact h p' hmem
      · subst heq
        have hp : p ∈ pl := by
          rw [List.get?_eq_getElem?] at hget
          exact List.getElem?_mem hget
        exact h p hp

theorem WF_applyDecision {pl : List Process} {d : Int} (hW : WF pl) :
    WF (applyDecision pl d) := by
  intro p' hp'
  unfold applyDecision at hp'
  split at hp'
  · exact hW p' hp'
  · split at hp'
    · exact hW p' hp'
    · rename_i p hget
      rcases List.mem_or_eq_of_mem_set hp' with hmem | heq
      · exact hW p' hmem
      · subst heq
        have hp : p ∈ pl := by
          rw [List.get?_eq_getElem?] at hget
          exact List.getElem?_mem hget
        obtain ⟨h1, h2, h3, h4⟩ := hW p hp
        refine ⟨h1, h2, ?_, ?_⟩
        · show 0 ≤ p.timeScheduled + 1
          omega
        · show (p.isDone || (p.timeScheduled + 1 == p.totalTimeNeeded)) = true ↔
            p.totalTimeNeeded ≤ p.timeScheduled + 1
          rcases Bool.eq_false_or_eq_true p.isDone with hb | hb
          · have hle : p.totalTimeNeeded ≤ p.timeScheduled := h4.mp hb
            rw [hb]
            simp only [Bool.true_or]
            exact ⟨fun _ => by omega, fun _ => trivial⟩
          · have hlt : p.timeScheduled < p.totalTimeNeeded := by
              rcases lt_or_le p.timeScheduled p.totalTimeNeeded with hc | hc
              · exact hc
              · exact absurd (h4.mpr hc) (by simp [hb])
            rw [hb]
            simp only [Bool.false_or, beq_iff_eq]
            omega

theorem sum_map_set (f : Process → Nat) (pl : List Process) :
    ∀ (i : Nat) (p : Process), i < pl.length →
      ((pl.set i p).map f).sum + f (getP pl i) = (pl.map f).sum + f p := by
  induction pl with
  | nil =>
    intro i p hi
    exact absurd hi (by simp)
  | cons a l ih =>
    intro i p hi
    cases i with
    | zero =>
      show (f p + (l.map f).sum) + f a = (f a + (l.map f).sum) + f p
      omega
    | succ i =>
      show (f a + ((l.set i p).map f).sum) + f (getP l i) =
        (f a + (l.map f).sum) + f p
      have := ih i p (by simpa using hi)
      omega

theorem remTotal_applyDecision_run {pl : List Process} {i : Nat} (hW : WF pl)
    (hi : i < pl.length) (hd : (getP pl i).isDone = false) :
    remTotal (applyDecision pl (i : Int)) + 1 = remTotal pl := by
  obtain ⟨h1, h2, h3, h4⟩ := hW (getP pl i) (getP_mem hi)
  have hlt : (getP pl i).timeScheduled < (getP pl i).totalTimeNeeded := by
    rcases lt_or_le (getP pl i).timeScheduled (getP pl i).totalTimeNeeded with hc | hc
    · exact hc
    · exact absurd (h4.mpr hc) (by simp [hd])
  unfold remTotal
  rw [applyDecision_eq_set hi]
  have hsum := sum_map_set
    (fun p => (p.totalTimeNeeded - p.timeScheduled).toNat) pl i
    (Process.mk (getP pl i).startTime (getP pl i).totalTimeNeeded
      ((getP pl i).timeScheduled + 1)
      ((getP pl i).isDone ||
        ((getP pl i).timeScheduled + 1 == (getP pl i).totalTimeNeeded))) hi
  have e1 : (fun p : Process => (p.totalTimeNeeded - p.timeScheduled).toNat)
      (Process.mk (getP pl i).startTime (getP pl i).totalTimeNeeded
        ((getP pl i).timeScheduled + 1)
        ((getP pl i).isDone ||
          ((getP pl i).timeScheduled + 1 == (getP pl i).totalTimeNeeded))) =
      ((getP pl i).totalTimeNeeded - ((getP pl i).timeScheduled + 1)).toNat := rfl
  have e2 : (fun p : Process => (p.totalTimeNeeded - p.timeScheduled).toNat)
      (getP pl i) =
      ((getP pl i).totalTimeNeeded - (getP pl i).timeScheduled).toNat := rfl
  rw [e1, e2] at hsum
  omega

theorem remTotal_applyDecision_le {pl : List Process} (hW : WF pl) (d : Int) :
    remTotal (applyDecision pl d) ≤ remTotal pl := by
  rcases lt_or_le d 0 with hd | hd
  · rw [applyDecision_neg hd]
  · obtain ⟨i, rfl⟩ : ∃ i : Nat, d = (i : Int) := ⟨d.toNat, by omega⟩
    by_cases hi : i < pl.length
    · unfold remTotal
      rw [applyDecision_eq_set hi]
      have hsum := sum_map_set
        (fun p => (p.totalTimeNeeded - p.timeScheduled).toNat) pl i
        (Process.mk (getP pl i).startTime (getP pl i).totalTimeNeeded
          ((getP pl i).timeScheduled + 1)
          ((getP pl i).isDone ||
            ((getP pl i).timeScheduled + 1 == (getP pl i).totalTimeNeeded))) hi
      have e1 : (fun p : Process => (p.totalTimeNeeded - p.timeScheduled).toNat)
          (Process.mk (getP pl i).startTime (getP pl i).totalTimeNeeded
            ((getP pl i).timeScheduled + 1)
            ((getP pl i).isDone ||
              ((getP pl i).timeScheduled + 1 == (getP pl i).totalTimeNeeded))) =
          ((getP pl i).totalTimeNeeded - ((getP pl i).timeScheduled + 1)).toNat :=
        rfl
      have e2 : (fun p : Process => (p.totalTimeNeeded - p.timeScheduled).toNat)
          (getP pl i) =
          ((getP pl i).totalTimeNeeded - (getP pl i).timeScheduled).toNat := rfl
      rw [e1, e2] at hsum
      omega
    · rw [applyDecision_oor hi]

theorem allDone_iff_remTotal {pl : List Process} (hW : WF pl) :
    allDone pl = true ↔ remTotal pl = 0 := by
  rw [allDone_iff]
  unfold remTotal
  rw [List.sum_eq_zero_iff]
  constructor
  · intro h x hx
    rw [List.mem_map] at hx
    obtain ⟨p, hp, rfl⟩ := hx
    have := (hW p hp).2.2.2.mp (h p hp)
    omega
  · intro h p hp
    have hx := h ((p.totalTimeNeeded - p.timeScheduled).toNat)
      (List.mem_map.mpr ⟨p, hp, rfl⟩)
    exact (hW p hp).2.2.2.mpr (by omega)

theorem allDone_false_exists {pl : List Process} (h : allDone pl = false) :
    ∃ j, j < pl.length ∧ (getP pl j).isDone = false := by
  unfold allDone at h
  rw [List.all_eq_false] at h
  obtain ⟨p, hp, hd⟩ := h
  obtain ⟨j, hj, rfl⟩ := List.mem_iff_getElem.mp hp
  refine ⟨j, hj, ?_⟩
  rw [getP_eq_getElem hj]
  simpa using hd

/-! ## Run-level lemmas for the index-based policies -/

/-- Every instance of the shared skeleton is a safe step function. -/
theorem selectStep_stepSafe (cmpf : Int → List Process → Nat → Nat → Bool)
    (inc : Bool) :
    stepSafe (fun c pl st => selectStep c pl (cmpf c pl) inc st) := by
  intro cur pl st hidx hall
  refine ⟨(selectStep cur pl (cmpf cur pl) inc st).2.index,
    selectStep_result hall, selectStep_index_lt hidx, rfl, ?_⟩
  intro harr
  obtain ⟨j, hj, hdj⟩ := allDone_false_exists hall
  have hex : ∃ j', j' < pl.length ∧ elig cur pl j' :=
    ⟨j, hj, hdj, harr _ (getP_mem hj)⟩
  by_cases hrt : st.runTime = 0 ∨ (getP pl st.index).isDone = true
  · exact (selectStep_decision_elig hrt hex).2.1.1
  · push_neg at hrt
    have hdone : (getP pl st.index).isDone = false := by
      rcases Bool.eq_false_or_eq_true (getP pl st.index).isDone with hb | hb
      · exact absurd hb hrt.2
      · exact hb
    rw [selectStep_midrun hdone hrt.1 hall]
    exact hdone

theorem spn_stepSafe : stepSafe ShortestProcessNext :=
  selectStep_stepSafe
    (fun _ pl x idx =>
      decide ((getP pl x).totalTimeNeeded < (getP pl idx).totalTimeNeeded)) true

theorem srt_stepSafe (timeQuantum : Int) :
    stepSafe (fun c p s => ShortestRemainingTime c p timeQuantum s) :=
  selectStep_stepSafe
    (fun _ pl x idx =>
      decide ((getP pl x).totalTimeNeeded - (getP pl x).timeScheduled <
        (getP pl idx).totalTimeNeeded - (getP pl idx).timeScheduled)) false

theorem hrrn_stepSafe : stepSafe HighestResponseRatioNext :=
  selectStep_stepSafe
    (fun c pl x idx =>
      decide (hrrnKey c (getP pl idx) < hrrnKey c (getP pl x))) true

/-- One-step unfolding of the driver loop. -/
theorem schedRun_succ (step : Int → List Process → SchedState → Int × SchedState)
    (fuel : Nat) (curTime : Int) (pl : List Process) (st : SchedState) :
    schedRun step (fuel + 1) curTime pl st =
      ((step curTime pl st).1 ::
        (schedRun step fuel (curTime + 1)
          (applyDecision pl (step curTime pl st).1) (step curTime pl st).2).1,
       (schedRun step fuel (curTime + 1)
          (applyDecision pl (step curTime pl st).1) (step curTime pl st).2).2.1,
       (schedRun step fuel (curTime + 1)
          (applyDecision pl (step curTime pl st).1) (step curTime pl st).2).2.2) :=
  rfl

theorem schedRun_roster_length
    (step : Int → List Process → SchedState → Int × SchedState) :
    ∀ (fuel : Nat) (curTime : Int) (pl : List Process) (st : SchedState),
      (schedRun step fuel curTime pl st).2.1.length = pl.length := by
  intro fuel
  induction fuel with
  | zero => intro curTime pl st; rfl
  | succ f ih =>
    intro curTime pl st
    rw [schedRun_succ]
    show (schedRun step f (curTime + 1)
      (applyDecision pl (step curTime pl st).1) (step curTime pl st).2).2.1.length
      = pl.length
    rw [ih, applyDecision_length]

theorem schedRun_starts
    (step : Int → List Process → SchedState → Int × SchedState)
    (Q : Int → Prop) :
    ∀ (fuel : Nat) (curTime : Int) (pl : List Process) (st : SchedState),
      (∀ p ∈ pl, Q p.startTime) →
      ∀ p' ∈ (schedRun step fuel curTime pl st).2.1, Q p'.startTime := by
  intro fuel
  induction fuel with
  | zero => intro curTime pl st h; exact h
  | succ f ih =>
    intro curTime pl st h
    rw [schedRun_succ]
    exact ih (curTime + 1) _ _ (applyDecision_mem_start pl _ Q h)

theorem schedRun_WF (step : Int → List Process → SchedState → Int × SchedState) :
    ∀ (fuel : Nat) (curTime : Int) (pl : List Process) (st : SchedState),
      WF pl → WF (schedRun step fuel curTime pl st).2.1 := by
  intro fuel
  induction fuel with
  | zero => intro curTime pl st h; exact h
  | succ f ih =>
    intro curTime pl st h
    rw [schedRun_succ]
    exact ih (curTime + 1) _ _ (WF_applyDecision h)

theorem schedRun_index (step : Int → List Process → SchedState → Int × SchedState)
    (hidxp : ∀ (curTime : Int) (pl : List Process) (st : SchedState),
      st.index < pl.length → (step curTime pl st).2.index < pl.length) :
    ∀ (fuel : Nat) (curTime : Int) (pl : List Process) (st : SchedState),
      st.index < pl.length →
      (schedRun step fuel curTime pl st).2.2.index < pl.length := by
  intro fuel
  induction fuel with
  | zero => intro curTime pl st h; exact h
  | succ f ih =>
    intro curTime pl st h
    rw [schedRun_succ]
    show (schedRun step f (curTime + 1)
      (applyDecision pl (step curTime pl st).1) (step curTime pl st).2).2.2.index
      < pl.length
    rw [← applyDecision_length pl (step curTime pl st).1]
    apply ih
    rw [applyDecision_length]
    exact hidxp curTime pl st h

/-- Splitting a driver run of `a + b` ticks at tick `a`. -/
theorem schedRun_add (step : Int → List Process → SchedState → Int × SchedState)
    (a b : Nat) :
    ∀ (curTime : Int) (pl : List Process) (st : SchedState),
      schedRun step (a + b) curTime pl st =
        ((schedRun step a curTime pl st).1 ++
          (schedRun step b (curTime + (a : Int))
            (schedRun step a curTime pl st).2.1
            (schedRun step a curTime pl st).2.2).1,
         (schedRun step b (curTime + (a : Int))
            (schedRun step a curTime pl st).2.1
            (schedRun step a curTime pl st).2.2).2.1,
         (schedRun step b (curTime + (a : Int))
            (schedRun step a curTime pl st).2.1
            (schedRun step a curTime pl st).2.2).2.2) := by
  induction a with
  | zero =>
    intro curTime pl st
    rw [Nat.zero_add]
    simp only [Nat.cast_zero, add_zero]
    rfl
  | succ a ih =>
    intro curTime pl st
    have hshift : a + 1 + b = (a + b) + 1 := by omega
    rw [hshift, schedRun_succ, schedRun_succ, ih]
    have hc : curTime + 1 + (a : Int) = curTime + ((a : Nat) + 1 : Int) := by ring
    simp only [Nat.cast_add, Nat.cast_one, List.cons_append, hc]

/-- Main engine for conservation and termination of the index-based
policies: from an all-arrived, well-formed roster with total remaining work
`fuel`, running `fuel` ticks finishes everything, every tick running a
process. -/
theorem schedRun_phase2
    (step : Int → List Process → SchedState → Int × SchedState)
    (hsafe : stepSafe step) :
    ∀ (fuel : Nat) (curTime : Int) (pl : List Process) (st : SchedState),
      WF pl → st.index < pl.length → (∀ p ∈ pl, p.startTime ≤ curTime) →
      remTotal pl = fuel →
      allDone (schedRun step fuel curTime pl st).2.1 = true ∧
      (∀ d ∈ (schedRun step fuel curTime pl st).1, 0 ≤ d) ∧
      (schedRun step fuel curTime pl st).1.length = fuel := by
  intro fuel
  induction fuel with
  | zero =>
    intro curTime pl st hW _ _ hrem
    refine ⟨(allDone_iff_remTotal hW).mpr hrem, ?_, rfl⟩
    intro d hd
    exact absurd hd (List.not_mem_nil d)
  | succ f ih =>
    intro curTime pl st hW hidx harr hrem
    have hall : allDone pl = false := by
      rcases Bool.eq_false_or_eq_true (allDone pl) with hb | hb
      · exfalso
        have := (allDone_iff_remTotal hW).mp hb
        omega
      · exact hb
    obtain ⟨i, hstep1, hilen, hstidx, hnd⟩ := hsafe curTime pl st hidx hall
    have hndone := hnd harr
    have hW' : WF (applyDecision pl (step curTime pl st).1) := WF_applyDecision hW
    have hidx' : (step curTime pl st).2.index <
        (applyDecision pl (step curTime pl st).1).length := by
      rw [applyDecision_length, hstidx]
      exact hilen
    have harr' : ∀ p ∈ applyDecision pl (step curTime pl st).1,
        p.startTime ≤ curTime + 1 :=
      applyDecision_mem_start pl _ (fun s => s ≤ curTime + 1)
        (fun p hp => by have := harr p hp; omega)
    have hrem' : remTotal (applyDecision pl (step curTime pl st).1) = f := by
      rw [hstep1]
      have := remTotal_applyDecision_run hW hilen hndone
      omega
    obtain ⟨ha, hd, hl⟩ := ih (curTime + 1)
      (applyDecision pl (step curTime pl st).1) (step curTime pl st).2
      hW' hidx' harr' hrem'
    rw [schedRun_succ]
    refine ⟨ha, ?_, by simp [hl]⟩
    intro d hdm
    rcases List.mem_cons.mp hdm with h | h
    · rw [h, hstep1]
      omega
    · exact hd d h

/-- Every arrival of a roster is bounded by `maxStart`. -/
theorem maxStart_le {pl : List Process} :
    ∀ p ∈ pl, p.startTime ≤ (maxStart pl : Int) := by
  induction pl with
  | nil => intro p hp; exact absurd hp (List.not_mem_nil p)
  | cons a l ih =>
    intro p hp
    have hfold : maxStart (a :: l) = max a.startTime.toNat (maxStart l) := rfl
    rcases List.mem_cons.mp hp with h | h
    · subst h
      calc p.startTime ≤ (p.startTime.toNat : Int) := Int.self_le_toNat _
        _ ≤ (maxStart (p :: l) : Int) := by
          rw [hfold]
          exact_mod_cast Nat.le_max_left _ _
    · calc p.startTime ≤ (maxStart l : Int) := ih p h
        _ ≤ (maxStart (a :: l) : Int) := by
          rw [hfold]
          exact_mod_cast Nat.le_max_right _ _

theorem initialRoster_WF {pl : List Process} (h : initialRoster pl) : WF pl := by
  intro p hp
  obtain ⟨h1, h2, h3, h4⟩ := h p hp
  refine ⟨h1, h2, by omega, ?_⟩
  rw [h4]
  constructor
  · intro hc
    exact absurd hc (by simp)
  · intro hc
    omega

theorem initialRoster_remTotal {pl : List Process} (h : initialRoster pl) :
    remTotal pl = sumNeeds pl := by
  unfold remTotal sumNeeds
  have hmap : pl.map (fun p => (p.totalTimeNeeded - p.timeScheduled).toNat) =
      pl.map (fun p => p.totalTimeNeeded.toNat) := by
    apply List.map_congr_left
    intro p hp
    rw [(h p hp).2.2.1]
    simp
  rw [hmap]

/-! ## Run-level lemmas for Round Robin -/

theorem admitArrivals_eq_self {curTime : Int} {pl : List Process} {rdy : List Nat}
    (h : ∀ i, i < pl.length → (getP pl i).startTime ≠ curTime) :
    admitArrivals curTime pl rdy = rdy := by
  unfold admitArrivals
  have hfil : (List.range pl.length).filter
      (fun i => (getP pl i).startTime == curTime) = [] := by
    apply List.filter_eq_nil_iff.mpr
    intro i hi
    simp only [beq_iff_eq]
    exact h i (List.mem_range.mp hi)
  rw [hfil, List.append_nil]

theorem admitArrivals_initial {curTime : Int} {pl : List Process}
    (hz : ∀ p ∈ pl, p.startTime = curTime) :
    admitArrivals curTime pl [] = List.range pl.length := by
  unfold admitArrivals
  rw [List.nil_append]
  apply List.filter_eq_self.mpr
  intro i hi
  simp only [beq_iff_eq]
  exact hz _ (getP_mem (List.mem_range.mp hi))

/-- Re-establishing the Round-Robin queue invariant after running the head
`i` of the post-rotation queue `rdy2`. -/
theorem rrQueueOK_establish {curTime : Int} {pl : List Process} {i : Nat}
    {t2 : Int} {rdy2 : List Nat}
    (hz : ∀ p ∈ pl, p.startTime = 0) (hcur : 0 ≤ curTime)
    (hsub : ∀ j ∈ rdy2, j < pl.length) (hnd : rdy2.Nodup)
    (hcontain : ∀ j, j < pl.length → (getP pl j).isDone = false → j ∈ rdy2)
    (htail : ∀ j ∈ rdy2.tail, (getP pl j).isDone = false)
    (hhead : i ∉ rdy2.tail) :
    rrQueueOK (curTime + 1) (applyDecision pl (i : Int)) (RRState.mk t2 rdy2) := by
  have harrivals : admitArrivals (curTime + 1) (applyDecision pl (i : Int)) rdy2 = rdy2 := by
    apply admitArrivals_eq_self
    intro j hj
    rw [applyDecision_startTime]
    have hj' : j < pl.length := by rwa [applyDecision_length] at hj
    have := hz _ (getP_mem hj')
    omega
  show (∀ j ∈ admitArrivals (curTime + 1) (applyDecision pl (i : Int)) rdy2,
      j < (applyDecision pl (i : Int)).length) ∧ _ ∧ _ ∧ _
  rw [harrivals, applyDecision_length]
  refine ⟨hsub, hnd, ?_, ?_⟩
  · intro j hj hdone'
    have hdj : (getP pl j).isDone = false := by
      rcases Bool.eq_false_or_eq_true (getP pl j).isDone with hb | hb
      · exact absurd (@applyDecision_done_mono pl (i : Int) j hb)
          (by simp [hdone'])
      · exact hb
    exact hcontain j hj hdj
  · intro j hjt
    have hne : i ≠ j := fun he => hhead (he ▸ hjt)
    rw [getP_applyDecision_ne hne]
    exact htail j hjt

theorem rrRotate_keep {pl : List Process} {timeQuantum t : Int} {h : Nat}
    {rest : List Nat}
    (hcond : ¬ (t == 0 || (getP pl h).isDone) = true) :
    rrRotate pl timeQuantum t (h :: rest) = some (t, h :: rest) := by
  show (if (t == 0 || (getP pl h).isDone) = true then
      some (timeQuantum, if (getP pl h).isDone = true then rest else rest ++ [h])
    else some (t, h :: rest)) = some (t, h :: rest)
  rw [if_neg hcond]

theorem rrRotate_pop {pl : List Process} {timeQuantum t : Int} {h : Nat}
    {rest : List Nat}
    (hcond : (t == 0 || (getP pl h).isDone) = true)
    (hdh : (getP pl h).isDone = true) :
    rrRotate pl timeQuantum t (h :: rest) = some (timeQuantum, rest) := by
  show (if (t == 0 || (getP pl h).isDone) = true then
      some (timeQuantum, if (getP pl h).isDone = true then rest else rest ++ [h])
    else some (t, h :: rest)) = some (timeQuantum, rest)
  rw [if_pos hcond, if_pos hdh]

theorem rrRotate_requeue {pl : List Process} {timeQuantum t : Int} {h : Nat}
    {rest : List Nat}
    (hcond : (t == 0 || (getP pl h).isDone) = true)
    (hdh : (getP pl h).isDone = false) :
    rrRotate pl timeQuantum t (h :: rest) = some (timeQuantum, rest ++ [h]) := by
  show (if (t == 0 || (getP pl h).isDone) = true then
      some (timeQuantum, if (getP pl h).isDone = true then rest else rest ++ [h])
    else some (t, h :: rest)) = some (timeQuantum, rest ++ [h])
  rw [if_pos hcond, if_neg (by simp [hdh])]

theorem RoundRobin_of_rotate {curTime : Int} {pl : List Process}
    {timeQuantum : Int} {st : RRState} {t2 : Int} {h2 : Nat} {rest2 : List Nat}
    (hrot : rrRotate pl timeQuantum st.timeToNextSched
      (admitArrivals curTime pl st.ready) = some (t2, h2 :: rest2)) :
    RoundRobin curTime pl timeQuantum st =
      some ((h2 : Int), RRState.mk (t2 - 1) (h2 :: rest2)) := by
  unfold RoundRobin
  rw [hrot]

/-- One Round-Robin step on an all-arrived (arrival-0) roster with the queue
invariant: the step succeeds, returns a not-done in-range index, and
preserves the invariant across the driver update. -/
theorem rr_step (curTime : Int) (pl : List Process) (timeQuantum : Int)
    (st : RRState) (hcur : 0 ≤ curTime) (hz : ∀ p ∈ pl, p.startTime = 0)
    (hinv : rrQueueOK curTime pl st) (hall : allDone pl = false) :
    ∃ (i : Nat) (st' : RRState),
      RoundRobin curTime pl timeQuantum st = some ((i : Int), st') ∧
      i < pl.length ∧ (getP pl i).isDone = false ∧
      rrQueueOK (curTime + 1) (applyDecision pl (i : Int)) st' := by
  obtain ⟨hsub, hnd, hcontain, htail⟩ := hinv
  obtain ⟨k, hk, hkd⟩ := allDone_false_exists hall
  have hkmem : k ∈ admitArrivals curTime pl st.ready := hcontain k hk hkd
  rcases hrdy : admitArrivals curTime pl st.ready with _ | ⟨h, rest⟩
  · rw [hrdy] at hkmem
    exact absurd hkmem (List.not_mem_nil k)
  rw [hrdy] at hsub hnd hcontain htail hkmem
  have htail' : ∀ j ∈ rest, (getP pl j).isDone = false := htail
  have hnotmem : h ∉ rest := (List.nodup_cons.mp hnd).1
  have hndrest : rest.Nodup := (List.nodup_cons.mp hnd).2
  by_cases hcond : (st.timeToNextSched == 0 || (getP pl h).isDone) = true
  · by_cases hdh : (getP pl h).isDone = true
    · -- head done: pop without requeue
      have hrest : ∃ h2 rest2, rest = h2 :: rest2 := by
        rcases List.mem_cons.mp hkmem with he | hm
        · exact absurd (he ▸ hkd) (by simp [hdh])
        · cases rest with
          | nil => exact absurd hm (List.not_mem_nil k)
          | cons h2 rest2 => exact ⟨h2, rest2, rfl⟩
      obtain ⟨h2, rest2, rfl⟩ := hrest
      have hrot := @rrRotate_pop pl timeQuantum st.timeToNextSched h
        (h2 :: rest2) hcond hdh
      refine ⟨h2, RRState.mk (timeQuantum - 1) (h2 :: rest2),
        RoundRobin_of_rotate (by rw [hrdy]; exact hrot), ?_, ?_, ?_⟩
      · exact hsub h2 (List.mem_cons_of_mem h (List.mem_cons_self h2 rest2))
      · exact htail' h2 (List.mem_cons_self h2 rest2)
      · apply rrQueueOK_establish hz hcur
        · intro j hj
          exact hsub j (List.mem_cons_of_mem h hj)
        · exact hndrest
        · intro j hj hdj
          rcases List.mem_cons.mp (hcontain j hj hdj) with he | hm
          · exact absurd (he ▸ hdj) (by simp [hdh])
          · exact hm
        · intro j hjt
          exact htail' j (List.mem_cons_of_mem h2 hjt)
        · exact (List.nodup_cons.mp hndrest).1
    · -- head not done but quantum expired: requeue the head
      have hdh' : (getP pl h).isDone = false := by
        rcases Bool.eq_false_or_eq_true (getP pl h).isDone with hb | hb
        · exact absurd hb hdh
        · exact hb
      have hrot := @rrRotate_requeue pl timeQuantum st.timeToNextSched h
        rest hcond hdh'
      cases rest with
      | nil =>
        refine ⟨h, RRState.mk (timeQuantum - 1) [h],
          RoundRobin_of_rotate (by rw [hrdy]; exact hrot), ?_, ?_, ?_⟩
        · exact hsub h (List.mem_cons_self h [])
        · exact hdh'
        · apply rrQueueOK_establish hz hcur
          · intro j hj
            rw [List.mem_singleton.mp hj]
            exact hsub h (List.mem_cons_self h [])
          · exact List.nodup_singleton h
          · intro j hj hdj
            rcases List.mem_cons.mp (hcontain j hj hdj) with he | hm
            · rw [he]
              exact List.mem_singleton.mpr rfl
            · exact absurd hm (List.not_mem_nil j)
          · intro j hjt
            exact absurd hjt (List.not_mem_nil j)
          · simp
      | cons h2 rest2 =>
        have hh2ne : h ≠ h2 := fun he =>
          hnotmem (he ▸ List.mem_cons_self h2 rest2)
        have hndr2 := List.nodup_cons.mp hndrest
        have hqeq : (h2 :: rest2) ++ [h] = h2 :: (rest2 ++ [h]) :=
          List.cons_append h2 rest2 [h]
        rw [hqeq] at hrot
        refine ⟨h2, RRState.mk (timeQuantum - 1) (h2 :: (rest2 ++ [h])),
          RoundRobin_of_rotate (by rw [hrdy]; exact hrot), ?_, ?_, ?_⟩
        · exact hsub h2 (List.mem_cons_of_mem h (List.mem_cons_self h2 rest2))
        · exact htail' h2 (List.mem_cons_self h2 rest2)
        · apply rrQueueOK_establish hz hcur
          · intro j hj
            rcases List.mem_cons.mp hj with he | hm
            · rw [he]
              exact hsub h2 (List.mem_cons_of_mem h (List.mem_cons_self h2 rest2))
            · rcases List.mem_append.mp hm with hm2 | hm2
              · exact hsub j (List.mem_cons_of_mem h
                  (List.mem_cons_of_mem h2 hm2))
              · rw [List.mem_singleton.mp hm2]
                exact hsub h (List.mem_cons_self h (h2 :: rest2))
          · rw [← hqeq, List.nodup_append_comm]
            exact hnd
          · intro j hj hdj
            rcases List.mem_cons.mp (hcontain j hj hdj) with he | hm
            · rw [he]
              exact List.mem_cons_of_mem h2
                (List.mem_append.mpr (Or.inr (List.mem_singleton.mpr rfl)))
            · rcases List.mem_cons.mp hm with he2 | hm2
              · rw [he2]
                exact List.mem_cons_self h2 (rest2 ++ [h])
              · exact List.mem_cons_of_mem h2 (List.mem_append.mpr (Or.inl hm2))
          · intro j hjt
            rcases List.mem_append.mp hjt with hm | hm
            · exact htail' j (List.mem_cons_of_mem h2 hm)
            · rw [List.mem_singleton.mp hm]
              exact hdh'
          · intro hc
            rcases List.mem_append.mp hc with hm | hm
            · exact hndr2.1 hm
            · exact hh2ne (List.mem_singleton.mp hm).symm
  · -- no rotation: run the head
    have hdh' : (getP pl h).isDone = false := by
      simp only [Bool.or_eq_true, not_or] at hcond
      rcases Bool.eq_false_or_eq_true (getP pl h).isDone with hb | hb
      · exact absurd hb hcond.2
      · exact hb
    have hrot := @rrRotate_keep pl timeQuantum st.timeToNextSched h
      rest hcond
    refine ⟨h, RRState.mk (st.timeToNextSched - 1) (h :: rest),
      RoundRobin_of_rotate (by rw [hrdy]; exact hrot), ?_, ?_, ?_⟩
    · exact hsub h (List.mem_cons_self h rest)
    · exact hdh'
    · apply rrQueueOK_establish hz hcur
      · exact hsub
      · exact hnd
      · exact hcontain
      · exact htail
      · exact hnotmem

/-- The Round-Robin queue invariant holds at the first call of an arrival-0
run. -/
theorem rrQueueOK_init {pl : List Process} (timeQuantum : Int)
    (hinit : initialRoster pl) (hz : ∀ p ∈ pl, p.startTime = 0) :
    rrQueueOK 0 pl (rrInit timeQuantum) := by
  have harrivals : admitArrivals 0 pl (rrInit timeQuantum).ready = List.range pl.length := by
    show admitArrivals 0 pl [] = _
    exact admitArrivals_initial hz
  show (∀ i ∈ admitArrivals 0 pl (rrInit timeQuantum).ready, i < pl.length) ∧ _ ∧ _ ∧ _
  rw [harrivals]
  refine ⟨fun i hi => List.mem_range.mp hi, List.nodup_range _,
    fun i hi _ => List.mem_range.mpr hi, ?_⟩
  intro j hjt
  have hj : j < pl.length :=
    List.mem_range.mp (List.mem_of_mem_tail hjt)
  exact (hinit _ (getP_mem hj)).2.2.2

/-- Completion of an all-arrival-0 Round-Robin run: `remTotal pl` further
ticks finish everything, each tick running a process. -/
theorem rrRun_complete (timeQuantum : Int) :
    ∀ (fuel : Nat) (curTime : Int) (pl : List Process) (st : RRState),
      0 ≤ curTime → (∀ p ∈ pl, p.startTime = 0) → WF pl →
      rrQueueOK curTime pl st → remTotal pl = fuel →
      ∃ r : List Int × List Process × RRState,
        rrRun timeQuantum fuel curTime pl st = some r ∧
        allDone r.2.1 = true ∧ r.1.length = fuel ∧ ∀ d ∈ r.1, 0 ≤ d := by
  intro fuel
  induction fuel with
  | zero =>
    intro curTime pl st _ _ hW _ hrem
    exact ⟨([], pl, st), rfl, (allDone_iff_remTotal hW).mpr hrem, rfl,
      fun d hd => absurd hd (List.not_mem_nil d)⟩
  | succ f ih =>
    intro curTime pl st hcur hz hW hinv hrem
    have hall : allDone pl = false := by
      rcases Bool.eq_false_or_eq_true (allDone pl) with hb | hb
      · exfalso
        have := (allDone_iff_remTotal hW).mp hb
        omega
      · exact hb
    obtain ⟨i, st', heq, hi, hdone, hinv'⟩ :=
      rr_step curTime pl timeQuantum st hcur hz hinv hall
    have hz' : ∀ p ∈ applyDecision pl (i : Int), p.startTime = 0 :=
      applyDecision_mem_start pl _ (fun s => s = 0) hz
    have hrem' : remTotal (applyDecision pl (i : Int)) = f := by
      have := remTotal_applyDecision_run hW hi hdone
      omega
    obtain ⟨r, hr, hrall, hrlen, hrpos⟩ := ih (curTime + 1)
      (applyDecision pl (i : Int)) st' (by omega) hz'
      (WF_applyDecision hW) hinv' hrem'
    refine ⟨((i : Int) :: r.1, r.2.1, r.2.2), ?_, hrall, by simp [hrlen], ?_⟩
    · show rrRun timeQuantum (f + 1) curTime pl st = _
      simp only [rrRun, heq, hr]
    · intro d hd
      rcases List.mem_cons.mp hd with he | hm
      · rw [he]
        omega
      · exact hrpos d hm

/-- A crashed Round-Robin run stays crashed with more fuel. -/
theorem rrRun_none_mono (timeQuantum : Int) :
    ∀ (f : Nat) (curTime : Int) (pl : List Process) (st : RRState),
      rrRun timeQuantum f curTime pl st = none →
      ∀ g, f ≤ g → rrRun timeQuantum g curTime pl st = none := by
  intro f
  induction f with
  | zero =>
    intro curTime pl st h g hg
    exact absurd h (by simp [rrRun])
  | succ f ih =>
    intro curTime pl st h g hg
    obtain ⟨g', rfl⟩ : ∃ g', g = g' + 1 := ⟨g - 1, by omega⟩
    cases hR : RoundRobin curTime pl timeQuantum st with
    | none => simp [rrRun, hR]
    | some r =>
      obtain ⟨d, st'⟩ := r
      simp only [rrRun, hR] at h ⊢
      cases hrec : rrRun timeQuantum f (curTime + 1) (applyDecision pl d) st' with
      | none =>
        rw [ih (curTime + 1) (applyDecision pl d) st' hrec g' (by omega)]
      | some rr =>
        rw [hrec] at h
        exact absurd h (by simp)

/-- All-nonnegative decision lists have full run-decision count. -/
theorem countP_nonneg_eq_length (ds : List Int) (h : ∀ d ∈ ds, 0 ≤ d) :
    ds.countP (fun d => decide (0 ≤ d)) = ds.length :=
  List.countP_eq_length.mpr (fun d hd => decide_eq_true (h d hd))

/-- Termination skeleton for the index-based policies with arbitrary
non-negative arrivals: after `maxStart pl` warm-up ticks and the remaining
work, everything is done. -/
theorem sched_terminates
    (step : Int → List Process → SchedState → Int × SchedState)
    (hsafe : stepSafe step)
    (hidxp : ∀ (curTime : Int) (pl : List Process) (st : SchedState),
      st.index < pl.length → (step curTime pl st).2.index < pl.length)
    (pl : List Process) (hinit : initialRoster pl) (hne : pl ≠ []) :
    ∃ T : Nat, allDone (schedRun step T 0 pl schedInit).2.1 = true := by
  have hW := initialRoster_WF hinit
  have hidx0 : schedInit.index < pl.length := List.length_pos.mpr hne
  have hW1 : WF (schedRun step (maxStart pl) 0 pl schedInit).2.1 :=
    schedRun_WF step (maxStart pl) 0 pl schedInit hW
  have hidx1 : (schedRun step (maxStart pl) 0 pl schedInit).2.2.index <
      (schedRun step (maxStart pl) 0 pl schedInit).2.1.length := by
    rw [schedRun_roster_length]
    exact schedRun_index step hidxp (maxStart pl) 0 pl schedInit hidx0
  have harr2 : ∀ p ∈ (schedRun step (maxStart pl) 0 pl schedInit).2.1,
      p.startTime ≤ 0 + (maxStart pl : Int) := by
    intro p hp
    have := schedRun_starts step (fun s => s ≤ (maxStart pl : Int))
      (maxStart pl) 0 pl schedInit maxStart_le p hp
    omega
  obtain ⟨hall2, _, _⟩ := schedRun_phase2 step hsafe
    (remTotal (schedRun step (maxStart pl) 0 pl schedInit).2.1)
    (0 + (maxStart pl : Int))
    (schedRun step (maxStart pl) 0 pl schedInit).2.1
    (schedRun step (maxStart pl) 0 pl schedInit).2.2
    hW1 hidx1 harr2 rfl
  refine ⟨maxStart pl +
    remTotal (schedRun step (maxStart pl) 0 pl schedInit).2.1, ?_⟩
  rw [schedRun_add step (maxStart pl)
    (remTotal (schedRun step (maxStart pl) 0 pl schedInit).2.1) 0 pl schedInit]
  exact hall2

/-! ## The claims -/

/-- C1 (amended): non-preemption holds for `ShortestProcessNext` and
`HighestResponseRatioNext`: once index `i` is selected (state `⟨i, r⟩` with
`r > 0`), every subsequent call — over any sequence of ticks and
driver-updated rosters in which process `i` is not yet done — returns `i`
again.  (`ShortestRemainingTime` is excluded: its `runTime` is never
incremented, so it re-evaluates on every call; see the counterexample.) -/
theorem C1_nonpreemption_spn_hrrn (calls : List (Int × List Process))
    (i : Nat) (r : Int) (hr : 0 < r)
    (hc : ∀ c ∈ calls, i < c.2.length ∧ (getP c.2 i).isDone = false) :
    stepsReturn ShortestProcessNext calls (SchedState.mk i r) =
      calls.map (fun _ => (i : Int)) ∧
    stepsReturn HighestResponseRatioNext calls (SchedState.mk i r) =
      calls.map (fun _ => (i : Int)) := by
  constructor
  · exact stepsReturn_locked ShortestProcessNext spn_midrun_step calls i r hr hc
  · exact stepsReturn_locked HighestResponseRatioNext hrrn_midrun_step calls i r hr hc

/-- Witness for C1: two locked calls of each policy return the locked
index `1` twice. -/
theorem C1_nonpreemption_spn_hrrn_witness :
    (0 : Int) < 1 ∧
    stepsReturn ShortestProcessNext
      [((0 : Int), [Process.mk 0 3 1 false, Process.mk 0 2 1 false]),
       ((1 : Int), [Process.mk 0 3 2 false, Process.mk 0 2 1 false])]
      (SchedState.mk 1 1) = [1, 1] ∧
    stepsReturn HighestResponseRatioNext
      [((0 : Int), [Process.mk 0 3 1 false, Process.mk 0 2 1 false]),
       ((1 : Int), [Process.mk 0 3 2 false, Process.mk 0 2 1 false])]
      (SchedState.mk 1 1) = [1, 1] := by
  refine ⟨by decide, ?_⟩
  have h := C1_nonpreemption_spn_hrrn
    [((0 : Int), [Process.mk 0 3 1 false, Process.mk 0 2 1 false]),
     ((1 : Int), [Process.mk 0 3 2 false, Process.mk 0 2 1 false])]
    1 1 (by decide) (by decide)
  simpa using h

/-- C1 counterexample: `ShortestRemainingTime` interleaves another index
before the selected process completes.  With P0(arrival 0, need 5) and
P1(arrival 2, need 1) the decisions of the first three ticks are
`[0, 0, 1]`, while process 0 is still not done — so the claim's
non-preemption law fails for `ShortestRemainingTime`. -/
theorem C1_srt_preempts_counterexample :
    (schedRun (fun c p s => ShortestRemainingTime c p 2 s) 3 0
      [Process.mk 0 5 0 false, Process.mk 2 1 0 false] schedInit).1 = [0, 0, 1] ∧
    (getP (schedRun (fun c p s => ShortestRemainingTime c p 2 s) 3 0
      [Process.mk 0 5 0 false, Process.mk 2 1 0 false] schedInit).2.1 0).isDone
      = false := by
  decide

/-- C2 (amended): for every quantum and every roster in which no process has
arrived at the current tick, a call to `RoundRobin` from the fresh state
evaluates `ready[0]` on the empty ready queue — an out-of-range access,
modelled as `none` — instead of returning the Idle decision `-1`. -/
theorem C2_prearrival_oob (curTime : Int) (pl : List Process)
    (timeQuantum : Int) (h : ∀ p ∈ pl, ¬ p.startTime ≤ curTime) :
    RoundRobin curTime pl timeQuantum (rrInit timeQuantum) = none := by
  have harrivals : admitArrivals curTime pl [] = [] := by
    unfold admitArrivals
    rw [List.nil_append]
    apply List.filter_eq_nil_iff.mpr
    intro i hi
    have hmem : getP pl i ∈ pl := getP_mem (List.mem_range.mp hi)
    simp only [beq_iff_eq]
    intro heq
    exact h _ hmem (le_of_eq heq)
  unfold RoundRobin rrInit
  simp [harrivals, rrRotate]

/-- Witness for C2 (amended): a concrete pre-arrival call hits the
out-of-range read. -/
theorem C2_prearrival_oob_witness :
    (∀ p ∈ ([Process.mk 9 4 0 false] : List Process), ¬ p.startTime ≤ (3 : Int)) ∧
    RoundRobin 3 [Process.mk 9 4 0 false] 4 (rrInit 4) = none := by
  refine ⟨by decide, ?_⟩
  exact C2_prearrival_oob 3 [Process.mk 9 4 0 false] 4 (by decide)

/-- C2 counterexample: the claim asserts the pre-arrival call returns the
Idle decision `-1` without reading `readyQueue[0]` out of range; on the
concrete input quantum 2, roster `[P0(arrival 5, need 1)]`, tick 0, the call
performs the out-of-range read (modelled as `none`) and hence does not
return `-1`. -/
theorem C2_counterexample :
    RoundRobin 0 [Process.mk 5 1 0 false] 2 (rrInit 2) = none ∧
    ∀ st' : RRState,
      RoundRobin 0 [Process.mk 5 1 0 false] 2 (rrInit 2) ≠ some (-1, st') := by
  refine ⟨by decide, ?_⟩
  intro st' hc
  rw [show RoundRobin 0 [Process.mk 5 1 0 false] 2 (rrInit 2) = none from by decide]
    at hc
  exact Option.noConfusion hc

/-- C3 counterexample: with the arrival-gap roster P0(arrival 0, need 1),
P1(arrival 5, need 1), the call at tick 1 (after P0 completed at tick 0)
returns `Run 0` even though process 0 is done — violating the claimed
invariant that every returned decision is eligible, and the claimed
`Running(i) → AllDone` transition. -/
theorem C3_stale_counterexample :
    (ShortestProcessNext 1
      (schedRun ShortestProcessNext 1 0
        [Process.mk 0 1 0 false, Process.mk 5 1 0 false] schedInit).2.1
      (schedRun ShortestProcessNext 1 0
        [Process.mk 0 1 0 false, Process.mk 5 1 0 false] schedInit).2.2).1 = 0 ∧
    (getP (schedRun ShortestProcessNext 1 0
      [Process.mk 0 1 0 false, Process.mk 5 1 0 false] schedInit).2.1 0).isDone
      = true ∧
    allDone (schedRun ShortestProcessNext 1 0
      [Process.mk 0 1 0 false, Process.mk 5 1 0 false] schedInit).2.1 = false := by
  decide

/-- C3 (amended): for the three index-based policies, at a decision point
(`runLength = 0`, or the selected process has completed) at which an eligible
process exists, the returned decision `Run i` is eligible
(`arrivalTime ≤ currentTick`, not done) and in range; but when the selected
process is done and no eligible process exists while not all processes are
done, the policies return `Run` of the stale selected index (possibly a done
or not-yet-arrived process) rather than `AllDone`. -/
theorem C3_transitions (curTime : Int) (pl : List Process) (timeQuantum : Int)
    (st : SchedState) :
    ((st.runTime = 0 ∨ (getP pl st.index).isDone = true) →
      (∃ j, j < pl.length ∧ elig curTime pl j) →
      (∃ i : Nat, (ShortestProcessNext curTime pl st).1 = (i : Int) ∧
        i < pl.length ∧ elig curTime pl i) ∧
      (∃ i : Nat, (ShortestRemainingTime curTime pl timeQuantum st).1 = (i : Int) ∧
        i < pl.length ∧ elig curTime pl i) ∧
      (∃ i : Nat, (HighestResponseRatioNext curTime pl st).1 = (i : Int) ∧
        i < pl.length ∧ elig curTime pl i)) ∧
    ((getP pl st.index).isDone = true →
      (∀ j, j < pl.length → ¬ elig curTime pl j) → allDone pl = false →
      (ShortestProcessNext curTime pl st).1 = (st.index : Int) ∧
      (ShortestRemainingTime curTime pl timeQuantum st).1 = (st.index : Int) ∧
      (HighestResponseRatioNext curTime pl st).1 = (st.index : Int)) := by
  constructor
  · intro hrt hex
    refine ⟨?_, ?_, ?_⟩
    · unfold ShortestProcessNext
      obtain ⟨h1, h2, h3⟩ := selectStep_decision_elig hrt hex
      exact ⟨_, h1, h3, h2⟩
    · unfold ShortestRemainingTime
      obtain ⟨h1, h2, h3⟩ := selectStep_decision_elig hrt hex
      exact ⟨_, h1, h3, h2⟩
    · unfold HighestResponseRatioNext
      obtain ⟨h1, h2, h3⟩ := selectStep_decision_elig hrt hex
      exact ⟨_, h1, h3, h2⟩
  · intro hdone hnone hall
    refine ⟨?_, ?_, ?_⟩
    · unfold ShortestProcessNext
      exact (selectStep_stale hdone hnone).2 hall
    · unfold ShortestRemainingTime
      exact (selectStep_stale hdone hnone).2 hall
    · unfold HighestResponseRatioNext
      exact (selectStep_stale hdone hnone).2 hall

/-- Witness for C3 (amended): both parts at concrete inputs: a decision
point with an eligible process, and the stale arrival-gap situation. -/
theorem C3_transitions_witness :
    ((SchedState.mk 0 0).runTime = 0 ∨
      (getP [Process.mk 0 2 0 false] (SchedState.mk 0 0).index).isDone = true) ∧
    (∃ j, j < ([Process.mk 0 2 0 false] : List Process).length ∧
      elig 0 [Process.mk 0 2 0 false] j) ∧
    (∃ i : Nat, (ShortestProcessNext 0 [Process.mk 0 2 0 false]
      (SchedState.mk 0 0)).1 = (i : Int) ∧
      i < ([Process.mk 0 2 0 false] : List Process).length ∧
      elig 0 [Process.mk 0 2 0 false] i) := by
  refine ⟨Or.inl rfl, ⟨0, by decide, by decide⟩, ?_⟩
  exact ((C3_transitions 0 [Process.mk 0 2 0 false] 1 (SchedState.mk 0 0)).1
    (Or.inl rfl) ⟨0, by decide, by decide⟩).1

/-- C4: at a decision point (`runTime = 0`) with at least one eligible
process, `ShortestProcessNext` returns the eligible index with the smallest
`totalTimeNeeded`, ties broken to the lowest index (later candidates replace
only on strict `<`). -/
theorem C4_spn_selection_rule (curTime : Int) (pl : List Process)
    (st : SchedState) (hrt : st.runTime = 0)
    (hex : ∃ j, j < pl.length ∧ elig curTime pl j) :
    ∃ i : Nat, (ShortestProcessNext curTime pl st).1 = (i : Int) ∧
      i < pl.length ∧ elig curTime pl i ∧
      (∀ j, j < pl.length → elig curTime pl j →
        (getP pl i).totalTimeNeeded ≤ (getP pl j).totalTimeNeeded) ∧
      (∀ j, j < pl.length → elig curTime pl j →
        (getP pl j).totalTimeNeeded = (getP pl i).totalTimeNeeded → i ≤ j) := by
  unfold ShortestProcessNext
  obtain ⟨h0, h1, h2, h3, h4⟩ := @selectStep_decision Int _ curTime pl
    (fun x idx =>
      decide ((getP pl x).totalTimeNeeded < (getP pl idx).totalTimeNeeded))
    true st (fun j => (getP pl j).totalTimeNeeded)
    (fun x idx => by simp) (Or.inl hrt) hex
  exact ⟨_, h0, h2, h1, h3, h4⟩

/-- Witness for C4, including the claim's tie-break scenario: for the roster
P0(arrival 0, need 4), P1(arrival 0, need 4), the first call at tick 0
returns P0. -/
theorem C4_spn_selection_rule_witness :
    (SchedState.mk 0 0).runTime = 0 ∧
    (∃ j, j < ([Process.mk 0 4 0 false, Process.mk 0 4 0 false] :
      List Process).length ∧
      elig 0 [Process.mk 0 4 0 false, Process.mk 0 4 0 false] j) ∧
    (∃ i : Nat, (ShortestProcessNext 0
      [Process.mk 0 4 0 false, Process.mk 0 4 0 false] (SchedState.mk 0 0)).1
        = (i : Int) ∧
      i < ([Process.mk 0 4 0 false, Process.mk 0 4 0 false] :
        List Process).length ∧
      elig 0 [Process.mk 0 4 0 false, Process.mk 0 4 0 false] i ∧
      (∀ j, j < ([Process.mk 0 4 0 false, Process.mk 0 4 0 false] :
        List Process).length →
        elig 0 [Process.mk 0 4 0 false, Process.mk 0 4 0 false] j →
        (getP [Process.mk 0 4 0 false, Process.mk 0 4 0 false] i).totalTimeNeeded ≤
        (getP [Process.mk 0 4 0 false, Process.mk 0 4 0 false] j).totalTimeNeeded) ∧
      (∀ j, j < ([Process.mk 0 4 0 false, Process.mk 0 4 0 false] :
        List Process).length →
        elig 0 [Process.mk 0 4 0 false, Process.mk 0 4 0 false] j →
        (getP [Process.mk 0 4 0 false, Process.mk 0 4 0 false] j).totalTimeNeeded =
        (getP [Process.mk 0 4 0 false, Process.mk 0 4 0 false] i).totalTimeNeeded →
        i ≤ j)) ∧
    (ShortestProcessNext 0 [Process.mk 0 4 0 false, Process.mk 0 4 0 false]
      (SchedState.mk 0 0)).1 = 0 := by
  refine ⟨rfl, ⟨0, by decide, by decide⟩, ?_, by decide⟩
  exact C4_spn_selection_rule 0
    [Process.mk 0 4 0 false, Process.mk 0 4 0 false]
    (SchedState.mk 0 0) rfl ⟨0, by decide, by decide⟩

/-- C5: at a decision point (`runTime = 0`) with at least one eligible
process, and with every `serviceTimeNeeded` positive, the index returned by
`HighestResponseRatioNext` maximizes the response ratio
`(waitingTime + totalTimeNeeded) / totalTimeNeeded` (with
`waitingTime = curTime - startTime - timeScheduled`) over the eligible
processes, ties broken to the lowest index (replacement only on strict
`>`). -/
theorem C5_hrrn_selection_rule (curTime : Int) (pl : List Process)
    (st : SchedState) (hrt : st.runTime = 0)
    (hpos : ∀ p ∈ pl, 0 < p.totalTimeNeeded)
    (hex : ∃ j, j < pl.length ∧ elig curTime pl j) :
    ∃ i : Nat, (HighestResponseRatioNext curTime pl st).1 = (i : Int) ∧
      i < pl.length ∧ elig curTime pl i ∧
      (∀ j, j < pl.length → elig curTime pl j →
        hrrnKey curTime (getP pl j) ≤ hrrnKey curTime (getP pl i)) ∧
      (∀ j, j < pl.length → elig curTime pl j →
        hrrnKey curTime (getP pl j) = hrrnKey curTime (getP pl i) → i ≤ j) := by
  unfold HighestResponseRatioNext
  obtain ⟨h0, h1, h2, h3, h4⟩ := @selectStep_decision_max ℚ _ curTime pl
    (fun x idx =>
      decide (hrrnKey curTime (getP pl idx) < hrrnKey curTime (getP pl x)))
    true st (fun j => hrrnKey curTime (getP pl j))
    (fun x idx => by simp) (Or.inl hrt) hex
  exact ⟨_, h0, h2, h1, h3, h4⟩

/-- Witness for C5, on the spec's scenario roster P0(arrival 0, need 5),
P1(arrival 3, need 1) at tick 4 (P0 already served 3 ticks): process 1 has
the larger ratio and is selected. -/
theorem C5_hrrn_selection_rule_witness :
    (SchedState.mk 0 0).runTime = 0 ∧
    (∀ p ∈ ([Process.mk 0 5 3 false, Process.mk 3 1 0 false] : List Process),
      0 < p.totalTimeNeeded) ∧
    (∃ j, j < ([Process.mk 0 5 3 false, Process.mk 3 1 0 false] :
      List Process).length ∧
      elig 4 [Process.mk 0 5 3 false, Process.mk 3 1 0 false] j) ∧
    (∃ i : Nat, (HighestResponseRatioNext 4
      [Process.mk 0 5 3 false, Process.mk 3 1 0 false] (SchedState.mk 0 0)).1
        = (i : Int) ∧
      i < ([Process.mk 0 5 3 false, Process.mk 3 1 0 false] :
        List Process).length ∧
      elig 4 [Process.mk 0 5 3 false, Process.mk 3 1 0 false] i ∧
      (∀ j, j < ([Process.mk 0 5 3 false, Process.mk 3 1 0 false] :
        List Process).length →
        elig 4 [Process.mk 0 5 3 false, Process.mk 3 1 0 false] j →
        hrrnKey 4 (getP [Process.mk 0 5 3 false, Process.mk 3 1 0 false] j) ≤
        hrrnKey 4 (getP [Process.mk 0 5 3 false, Process.mk 3 1 0 false] i)) ∧
      (∀ j, j < ([Process.mk 0 5 3 false, Process.mk 3 1 0 false] :
        List Process).length →
        elig 4 [Process.mk 0 5 3 false, Process.mk 3 1 0 false] j →
        hrrnKey 4 (getP [Process.mk 0 5 3 false, Process.mk 3 1 0 false] j) =
        hrrnKey 4 (getP [Process.mk 0 5 3 false, Process.mk 3 1 0 false] i) →
        i ≤ j)) := by
  refine ⟨rfl, by decide, ⟨0, by decide, by decide⟩, ?_⟩
  exact C5_hrrn_selection_rule 4
    [Process.mk 0 5 3 false, Process.mk 3 1 0 false]
    (SchedState.mk 0 0) rfl (by decide) ⟨0, by decide, by decide⟩

/-- C6: the Round Robin scenario — quantum 2, P0(arrival 0, need 3),
P1(arrival 1, need 2) — produces the decisions `[0, 0, 1, 1, 0]` at ticks
0–4; after tick 3 P1 is done and P0 is not (P1 finishes at tick 3), and
after tick 4 both are done (P0 finishes at tick 4). -/
theorem C6_round_robin_scenario :
    rrRun 2 5 0 [Process.mk 0 3 0 false, Process.mk 1 2 0 false] (rrInit 2) =
      some ([0, 0, 1, 1, 0],
        [Process.mk 0 3 3 true, Process.mk 1 2 2 true], RRState.mk 1 [0]) ∧
    rrRun 2 4 0 [Process.mk 0 3 0 false, Process.mk 1 2 0 false] (rrInit 2) =
      some ([0, 0, 1, 1],
        [Process.mk 0 3 2 false, Process.mk 1 2 2 true], RRState.mk 0 [1, 0]) := by
  decide

/-- C9: for a non-empty roster (and an in-range selected index, the only
reachable states), the three index-based policies return the `-1` sentinel
exactly when every roster entry is done; otherwise they return an in-range
process index. -/
theorem C9_allDone_sentinel (curTime : Int) (pl : List Process)
    (st : SchedState) (timeQuantum : Int) (hne : pl ≠ [])
    (hidx : st.index < pl.length) :
    (((ShortestProcessNext curTime pl st).1 = -1 ↔ allDone pl = true) ∧
      (allDone pl = false → ∃ i : Nat,
        (ShortestProcessNext curTime pl st).1 = (i : Int) ∧ i < pl.length)) ∧
    (((ShortestRemainingTime curTime pl timeQuantum st).1 = -1 ↔
        allDone pl = true) ∧
      (allDone pl = false → ∃ i : Nat,
        (ShortestRemainingTime curTime pl timeQuantum st).1 = (i : Int) ∧
          i < pl.length)) ∧
    (((HighestResponseRatioNext curTime pl st).1 = -1 ↔ allDone pl = true) ∧
      (allDone pl = false → ∃ i : Nat,
        (HighestResponseRatioNext curTime pl st).1 = (i : Int) ∧
          i < pl.length)) := by
  refine ⟨⟨?_, ?_⟩, ⟨?_, ?_⟩, ⟨?_, ?_⟩⟩
  · exact selectStep_neg_iff
  · intro hall
    exact ⟨_, selectStep_result hall, selectStep_index_lt hidx⟩
  · exact selectStep_neg_iff
  · intro hall
    exact ⟨_, selectStep_result hall, selectStep_index_lt hidx⟩
  · exact selectStep_neg_iff
  · intro hall
    exact ⟨_, selectStep_result hall, selectStep_index_lt hidx⟩

/-- Witness for C9: a concrete all-done roster yields `-1` for all three
policies, and a half-done roster yields an in-range index. -/
theorem C9_allDone_sentinel_witness :
    ([Process.mk 0 1 1 true, Process.mk 0 2 1 false] : List Process) ≠ [] ∧
    (SchedState.mk 0 3).index <
      ([Process.mk 0 1 1 true, Process.mk 0 2 1 false] : List Process).length ∧
    (allDone [Process.mk 0 1 1 true, Process.mk 0 2 1 false] = false →
      ∃ i : Nat, (ShortestProcessNext 2
        [Process.mk 0 1 1 true, Process.mk 0 2 1 false] (SchedState.mk 0 3)).1
          = (i : Int) ∧
        i < ([Process.mk 0 1 1 true, Process.mk 0 2 1 false] :
          List Process).length) := by
  refine ⟨by decide, by decide, ?_⟩
  exact ((C9_allDone_sentinel 2 [Process.mk 0 1 1 true, Process.mk 0 2 1 false]
    (SchedState.mk 0 3) 1 (by decide) (by decide)).1).2

/-- C10: implicit pre-arrival index-0 lock-in of `ShortestProcessNext` and
`HighestResponseRatioNext`: from the fresh state, a call at a tick strictly
before every arrival (with not all processes done) returns index 0 and sets
`runTime` to 1; and from any state `⟨0, r⟩` with `r > 0`, every subsequent
call — whatever the rosters now contain — returns index 0 again as long as
process 0 is not done. -/
theorem C10_prearrival_lock_in :
    (∀ (curTime : Int) (pl : List Process),
      (∀ p ∈ pl, curTime < p.startTime) → allDone pl = false →
      ShortestProcessNext curTime pl schedInit = ((0 : Int), SchedState.mk 0 1) ∧
      HighestResponseRatioNext curTime pl schedInit =
        ((0 : Int), SchedState.mk 0 1)) ∧
    (∀ (calls : List (Int × List Process)) (r : Int), 0 < r →
      (∀ c ∈ calls, 0 < c.2.length ∧ (getP c.2 0).isDone = false) →
      stepsReturn ShortestProcessNext calls (SchedState.mk 0 r) =
        calls.map (fun _ => (0 : Int)) ∧
      stepsReturn HighestResponseRatioNext calls (SchedState.mk 0 r) =
        calls.map (fun _ => (0 : Int))) := by
  constructor
  · intro curTime pl hpre hall
    constructor
    · unfold ShortestProcessNext
      exact selectStep_prearrival hpre hall
    · unfold HighestResponseRatioNext
      exact selectStep_prearrival hpre hall
  · intro calls r hr hc
    exact ⟨stepsReturn_locked ShortestProcessNext spn_midrun_step calls 0 r hr hc,
      stepsReturn_locked HighestResponseRatioNext hrrn_midrun_step calls 0 r hr hc⟩

/-- Witness for C10: the first pre-arrival call on the roster
P0(arrival 2, need 5), P1(arrival 1, need 1) at tick 0, and a locked
subsequent call at tick 1 where the cheaper process 1 has arrived but index 0
is still returned. -/
theorem C10_prearrival_lock_in_witness :
    (∀ p ∈ ([Process.mk 2 5 0 false, Process.mk 1 1 0 false] : List Process),
      (0 : Int) < p.startTime) ∧
    allDone [Process.mk 2 5 0 false, Process.mk 1 1 0 false] = false ∧
    ShortestProcessNext 0 [Process.mk 2 5 0 false, Process.mk 1 1 0 false]
      schedInit = ((0 : Int), SchedState.mk 0 1) ∧
    stepsReturn ShortestProcessNext
      [((1 : Int), [Process.mk 2 5 0 false, Process.mk 1 1 0 false])]
      (SchedState.mk 0 1) = [0] := by
  refine ⟨by decide, by decide, ?_, ?_⟩
  · exact ((C10_prearrival_lock_in.1 0
      [Process.mk 2 5 0 false, Process.mk 1 1 0 false] (by decide) (by decide))).1
  · exact (C10_prearrival_lock_in.2
      [((1 : Int), [Process.mk 2 5 0 false, Process.mk 1 1 0 false])]
      1 (by decide) (by decide)).1

/-- C7 counterexample: on the arrival-gap roster P0(arrival 0, need 1),
P1(arrival 5, need 1), `ShortestProcessNext` under the §6 driver returns a
process at every one of the six ticks of the run (the stale done process 0
during the gap included), after which everything is done and the next call
returns `-1`; so the number of ticks at which a process is returned is 6,
while the sum of the service demands is 2. -/
theorem C7_gap_counterexample :
    (schedRun ShortestProcessNext 6 0
      [Process.mk 0 1 0 false, Process.mk 5 1 0 false] schedInit).1.countP
      (fun d => decide (0 ≤ d)) = 6 ∧
    allDone (schedRun ShortestProcessNext 6 0
      [Process.mk 0 1 0 false, Process.mk 5 1 0 false] schedInit).2.1 = true ∧
    (ShortestProcessNext 6
      (schedRun ShortestProcessNext 6 0
        [Process.mk 0 1 0 false, Process.mk 5 1 0 false] schedInit).2.1
      (schedRun ShortestProcessNext 6 0
        [Process.mk 0 1 0 false, Process.mk 5 1 0 false] schedInit).2.2).1 = -1 ∧
    sumNeeds [Process.mk 0 1 0 false, Process.mk 5 1 0 false] = 2 := by
  decide

/-- C7 (amended): conservation holds for all four policies on rosters whose
processes all arrive at tick 0 (so no idle gap occurs): the complete run
takes exactly `sumNeeds pl` ticks, every tick returns a process, and
afterwards every process is done. -/
theorem C7_conservation (pl : List Process) (timeQuantum : Int)
    (hinit : initialRoster pl) (hz : ∀ p ∈ pl, p.startTime = 0)
    (hne : pl ≠ []) :
    ((schedRun ShortestProcessNext (sumNeeds pl) 0 pl schedInit).1.countP
        (fun d => decide (0 ≤ d)) = sumNeeds pl ∧
      allDone (schedRun ShortestProcessNext (sumNeeds pl) 0 pl
        schedInit).2.1 = true) ∧
    ((schedRun (fun c p s => ShortestRemainingTime c p timeQuantum s)
        (sumNeeds pl) 0 pl schedInit).1.countP
        (fun d => decide (0 ≤ d)) = sumNeeds pl ∧
      allDone (schedRun (fun c p s => ShortestRemainingTime c p timeQuantum s)
        (sumNeeds pl) 0 pl schedInit).2.1 = true) ∧
    ((schedRun HighestResponseRatioNext (sumNeeds pl) 0 pl schedInit).1.countP
        (fun d => decide (0 ≤ d)) = sumNeeds pl ∧
      allDone (schedRun HighestResponseRatioNext (sumNeeds pl) 0 pl
        schedInit).2.1 = true) ∧
    (∃ r : List Int × List Process × RRState,
      rrRun timeQuantum (sumNeeds pl) 0 pl (rrInit timeQuantum) = some r ∧
      r.1.countP (fun d => decide (0 ≤ d)) = sumNeeds pl ∧
      allDone r.2.1 = true) := by
  have hW := initialRoster_WF hinit
  have hrem : remTotal pl = sumNeeds pl := initialRoster_remTotal hinit
  have hidx0 : schedInit.index < pl.length := List.length_pos.mpr hne
  have harr : ∀ p ∈ pl, p.startTime ≤ (0 : Int) :=
    fun p hp => le_of_eq (hz p hp)
  refine ⟨?_, ?_, ?_, ?_⟩
  · obtain ⟨ha, hp, hl⟩ := schedRun_phase2 ShortestProcessNext spn_stepSafe
      (sumNeeds pl) 0 pl schedInit hW hidx0 harr hrem
    exact ⟨by rw [countP_nonneg_eq_length _ hp, hl], ha⟩
  · obtain ⟨ha, hp, hl⟩ := schedRun_phase2
      (fun c p s => ShortestRemainingTime c p timeQuantum s)
      (srt_stepSafe timeQuantum) (sumNeeds pl) 0 pl schedInit hW hidx0 harr hrem
    exact ⟨by rw [countP_nonneg_eq_length _ hp, hl], ha⟩
  · obtain ⟨ha, hp, hl⟩ := schedRun_phase2 HighestResponseRatioNext hrrn_stepSafe
      (sumNeeds pl) 0 pl schedInit hW hidx0 harr hrem
    exact ⟨by rw [countP_nonneg_eq_length _ hp, hl], ha⟩
  · obtain ⟨r, hr, ha, hl, hp⟩ := rrRun_complete timeQuantum (sumNeeds pl) 0 pl
      (rrInit timeQuantum) le_rfl hz hW (rrQueueOK_init timeQuantum hinit hz)
      hrem
    exact ⟨r, hr, by rw [countP_nonneg_eq_length _ hp, hl], ha⟩

/-- Witness for C7 (amended): the arrival-0 roster P0(need 2), P1(need 1)
with quantum 2. -/
theorem C7_conservation_witness :
    initialRoster [Process.mk 0 2 0 false, Process.mk 0 1 0 false] ∧
    (∀ p ∈ ([Process.mk 0 2 0 false, Process.mk 0 1 0 false] : List Process),
      p.startTime = 0) ∧
    ([Process.mk 0 2 0 false, Process.mk 0 1 0 false] : List Process) ≠ [] ∧
    (∃ r : List Int × List Process × RRState,
      rrRun 2 (sumNeeds [Process.mk 0 2 0 false, Process.mk 0 1 0 false]) 0
        [Process.mk 0 2 0 false, Process.mk 0 1 0 false] (rrInit 2) = some r ∧
      r.1.countP (fun d => decide (0 ≤ d)) =
        sumNeeds [Process.mk 0 2 0 false, Process.mk 0 1 0 false] ∧
      allDone r.2.1 = true) := by
  refine ⟨by decide, by decide, by decide, ?_⟩
  exact (C7_conservation [Process.mk 0 2 0 false, Process.mk 0 1 0 false] 2
    (by decide) (by decide) (by decide)).2.2.2

/-- C8 counterexample: with quantum 2 and the arrival-gap roster
P0(arrival 0, need 1), P1(arrival 3, need 1), driven from the first arrival
(tick 0), the Round-Robin run never reaches the all-done state: the tick-2
rotation check runs against the empty ready queue (out of range, modelled as
`none`), so every run either is too short to finish or crashes — the claim's
"the run ends after finitely many ticks for RoundRobin" is false. -/
theorem C8_rr_gap_counterexample :
    ¬ ∃ (T : Nat) (r : List Int × List Process × RRState),
      rrRun 2 T 0 [Process.mk 0 1 0 false, Process.mk 3 1 0 false]
        (rrInit 2) = some r ∧ allDone r.2.1 = true := by
  rintro ⟨T, r, h, hdone⟩
  have hfalse : allDone r.2.1 = false := ?_
  · rw [hdone] at hfalse
    exact absurd hfalse (by simp)
  by_cases hT : 3 ≤ T
  · rw [rrRun_none_mono 2 3 0
      [Process.mk 0 1 0 false, Process.mk 3 1 0 false] (rrInit 2)
      (by decide) T hT] at h
    exact Option.noConfusion h
  · have h2 := congrArg (fun o =>
      Option.map (fun x : List Int × List Process × RRState => allDone x.2.1) o) h
    dsimp only at h2
    rw [Option.map_some'] at h2
    have h3 : (some false : Option Bool) = some (allDone r.2.1) := by
      rw [← h2]
      interval_cases T <;> decide
    exact (Option.some.inj h3).symm

/-- C8 (amended): for every finite non-empty roster with positive demands and
non-negative arrivals, `ShortestProcessNext`, `ShortestRemainingTime` and
`HighestResponseRatioNext` driven per §6 from tick 0 eventually have every
process done and from then on return the `-1` "all done" sentinel;
`RoundRobin` completes (all processes done after finitely many ticks)
provided every process arrives at tick 0 — with an arrival gap its run
instead hits the empty-queue out-of-range read (see the counterexample). -/
theorem C8_termination (pl : List Process) (timeQuantum : Int)
    (hinit : initialRoster pl) (hne : pl ≠ []) :
    (∃ T : Nat,
      allDone (schedRun ShortestProcessNext T 0 pl schedInit).2.1 = true ∧
      (ShortestProcessNext (T : Int)
        (schedRun ShortestProcessNext T 0 pl schedInit).2.1
        (schedRun ShortestProcessNext T 0 pl schedInit).2.2).1 = -1) ∧
    (∃ T : Nat,
      allDone (schedRun (fun c p s => ShortestRemainingTime c p timeQuantum s)
        T 0 pl schedInit).2.1 = true ∧
      (ShortestRemainingTime (T : Int)
        (schedRun (fun c p s => ShortestRemainingTime c p timeQuantum s)
          T 0 pl schedInit).2.1 timeQuantum
        (schedRun (fun c p s => ShortestRemainingTime c p timeQuantum s)
          T 0 pl schedInit).2.2).1 = -1) ∧
    (∃ T : Nat,
      allDone (schedRun HighestResponseRatioNext T 0 pl schedInit).2.1 = true ∧
      (HighestResponseRatioNext (T : Int)
        (schedRun HighestResponseRatioNext T 0 pl schedInit).2.1
        (schedRun HighestResponseRatioNext T 0 pl schedInit).2.2).1 = -1) ∧
    ((∀ p ∈ pl, p.startTime = 0) →
      ∃ (T : Nat) (r : List Int × List Process × RRState),
        rrRun timeQuantum T 0 pl (rrInit timeQuantum) = some r ∧
        allDone r.2.1 = true) := by
  refine ⟨?_, ?_, ?_, ?_⟩
  · obtain ⟨T, hT⟩ := sched_terminates ShortestProcessNext spn_stepSafe
      (fun c p s h => selectStep_index_lt h) pl hinit hne
    exact ⟨T, hT, selectStep_allDone hT⟩
  · obtain ⟨T, hT⟩ := sched_terminates
      (fun c p s => ShortestRemainingTime c p timeQuantum s)
      (srt_stepSafe timeQuantum) (fun c p s h => selectStep_index_lt h)
      pl hinit hne
    exact ⟨T, hT, selectStep_allDone hT⟩
  · obtain ⟨T, hT⟩ := sched_terminates HighestResponseRatioNext hrrn_stepSafe
      (fun c p s h => selectStep_index_lt h) pl hinit hne
    exact ⟨T, hT, selectStep_allDone hT⟩
  · intro hz
    obtain ⟨r, hr, ha, _, _⟩ := rrRun_complete timeQuantum (remTotal pl) 0 pl
      (rrInit timeQuantum) le_rfl hz (initialRoster_WF hinit)
      (rrQueueOK_init timeQuantum hinit hz) rfl
    exact ⟨remTotal pl, r, hr, ha⟩

/-- Witness for C8 (amended): a staggered-arrival roster for the index-based
policies, whose Round-Robin conjunct is discharged trivially for the
arrival-0 sub-case. -/
theorem C8_termination_witness :
    initialRoster [Process.mk 1 2 0 false, Process.mk 0 1 0 false] ∧
    ([Process.mk 1 2 0 false, Process.mk 0 1 0 false] : List Process) ≠ [] ∧
    (∃ T : Nat,
      allDone (schedRun ShortestProcessNext T 0
        [Process.mk 1 2 0 false, Process.mk 0 1 0 false] schedInit).2.1 = true ∧
      (ShortestProcessNext (T : Int)
        (schedRun ShortestProcessNext T 0
          [Process.mk 1 2 0 false, Process.mk 0 1 0 false] schedInit).2.1
        (schedRun ShortestProcessNext T 0
          [Process.mk 1 2 0 false, Process.mk 0 1 0 false] schedInit).2.2).1
        = -1) := by
  refine ⟨by decide, by decide, ?_⟩
  exact (C8_termination [Process.mk 1 2 0 false, Process.mk 0 1 0 false] 3
    (by decide) (by decide)).1

end Sched
